import Mathlib

/-!
Verification of the anatomical term-hierarchy and zoom-adaptive clustering
engine of the flatmap viewer (src/src/layers/datasetcluster.ts and the
clustered anatomical marker layer), over a shallow embedding of the code.

The term graph wrapper `MapTermGraph` is embedded from src/unnamed/part_001;
its internal `DiGraph` (src/knowledge/graphs) is not part of the sources, so
the graph queries `parents`, `depth`, `maxDepth` are inputs of the embedding
and the output of `connectedSubgraph` is characterised by a predicate modelled
from the spec (section 4.1).
-/

namespace FlatmapViewer

/-- BODY_PROPER, the designated root of the term hierarchy (src/unnamed/part_001). -/
def ANATOMICAL_ROOT : String := "UBERON:0013702"

/-- Constant from src/src/layers/datasetcluster.ts. -/
def MIN_MARKER_ZOOM : Int := 2

/-- Constant from src/src/layers/datasetcluster.ts. -/
def MAX_MARKER_ZOOM : Int := 12

/-- The term-graph queries used by `DatasetClusterSet`.  `MapTermGraph`
(src/unnamed/part_001) wraps a `DiGraph` whose code is not in the sources:
`parents` returns the direct parents of a term, `depth` returns the node
depth or `-1` when the term is absent or has no computed depth, and
`maxDepth` is the maximum depth over the whole graph. -/
structure MapTermGraph where
  parents : String → List String
  depth : String → Int
  maxDepth : Int

/-- `DatasetClusterSet.#depthToZoomRange` (datasetcluster.ts lines 115-123):
`zoom = MIN_MARKER_ZOOM + Math.floor((MAX_MARKER_ZOOM - MIN_MARKER_ZOOM)*depth/maxDepth)`,
then the clamped band.  `Math.floor` of the real quotient is floor division,
embedded as `Int.fdiv`; for graph-sized integers the double-precision
evaluation in JS agrees with the exact quotient. -/
def depthToZoomRange (maxDepth depth : Int) : Int × Int :=
  let zoom : Int :=
    MIN_MARKER_ZOOM + ((MAX_MARKER_ZOOM - MIN_MARKER_ZOOM) * depth).fdiv maxDepth
  if zoom < 0 then (0, 1)
  else if zoom ≥ MAX_MARKER_ZOOM then (MAX_MARKER_ZOOM, MAX_MARKER_ZOOM)
  else (zoom, zoom + 1)

/-- The loop of `#substituteTerm` (datasetcluster.ts lines 170-179): starting
from `furthestParent = null`, overwrite `furthestParent` with each parent that
is concretely present on the map and has `depth > -1`.  Because the bound
`maxDepth` is declared `const maxDepth = -1` and never reassigned, the
comparison `depth > maxDepth` is always against `-1`, so the loop keeps the
last qualifying parent, not the deepest one. -/
def lastPresentParent (hasAI : String → Bool) (M : MapTermGraph)
    (ps : List String) : Option String :=
  ps.foldl (fun acc p => if hasAI p = true ∧ M.depth p > -1 then some p else acc) none

/-- `DatasetClusterSet.#substituteTerm` (datasetcluster.ts lines 162-183),
with explicit recursion fuel (the source recurses along `parents[0]`; the
term graph is a DAG so the recursion depth is bounded by the graph).  The JS
ternary `furthestParent ? furthestParent : recurse` treats the empty string
as falsy, which the `fp = ""` test reproduces. -/
def substituteTerm (hasAI : String → Bool) (M : MapTermGraph) :
    Nat → String → Option String
  | 0, _ => none
  | fuel+1, term =>
    match M.parents term with
    | [] => none
    | p0 :: rest =>
      if p0 = ANATOMICAL_ROOT then none
      else
        match lastPresentParent hasAI M (p0 :: rest) with
        | some fp => if fp = "" then substituteTerm hasAI M fuel p0 else some fp
        | none => substituteTerm hasAI M fuel p0

/-- The local `addMarkerTerm` of `#validatedMarkerTerms` (datasetcluster.ts
lines 189-197): upsert into the `markerTerm ==> set of dataset terms` map,
keeping insertion order, adding `datasetTerm` to the set if absent. -/
def addMarkerTerm (m : List (String × List String)) (markerTerm datasetTerm : String) :
    List (String × List String) :=
  match m with
  | [] => [(markerTerm, [datasetTerm])]
  | (k, v) :: rest =>
    if k = markerTerm then
      (k, if datasetTerm ∈ v then v else v ++ [datasetTerm]) :: rest
    else
      (k, v) :: addMarkerTerm rest markerTerm datasetTerm

/-- A whitespace character for the purposes of the JS `String.trim`. -/
def isJsSpace (c : Char) : Bool :=
  c == ' ' || c == '\t' || c == '\n' || c == '\r'

/-- The JS `term.trim()`: strip leading and trailing whitespace. -/
def jsTrim (s : String) : String :=
  ⟨((s.data.dropWhile isJsSpace).reverse.dropWhile isJsSpace).reverse⟩

/-- One iteration of the loop of `#validatedMarkerTerms` (datasetcluster.ts
lines 198-210): trim the raw term, skip blanks, keep concretely present
terms, otherwise substitute (dropping the term when no substitute exists). -/
def validateStep (hasAI : String → Bool) (M : MapTermGraph) (fuel : Nat)
    (m : List (String × List String)) (rawTerm : String) :
    List (String × List String) :=
  let term := jsTrim rawTerm
  if term = "" then m
  else if hasAI term then addMarkerTerm m term term
  else
    match substituteTerm hasAI M fuel term with
    | some s => addMarkerTerm m s term
    | none => m

/-- `DatasetClusterSet.#validatedMarkerTerms` (datasetcluster.ts lines
185-212): the result maps each retained marker term to the set of original
dataset terms it stands for. -/
def validatedMarkerTerms (hasAI : String → Bool) (M : MapTermGraph)
    (fuel : Nat) (terms : List String) : List (String × List String) :=
  terms.foldl (validateStep hasAI M fuel) []

/-- Auxiliary: a `some` result of the substitute-selection loop is a
concretely present parent from the list. -/
theorem lastPresentParent_spec (hasAI : String → Bool) (M : MapTermGraph) :
    ∀ (ps : List String) (acc : Option String) (q : String),
      ps.foldl (fun acc p => if hasAI p = true ∧ M.depth p > -1 then some p else acc) acc = some q →
      acc = some q ∨ (hasAI q = true ∧ M.depth q > -1 ∧ q ∈ ps) := by
  intro ps
  induction ps with
  | nil => intro acc q h; exact Or.inl h
  | cons hd tl ih =>
    intro acc q h
    simp only [List.foldl_cons] at h
    rcases ih _ q h with h' | h'
    · by_cases hc : hasAI hd = true ∧ M.depth hd > -1
      · rw [if_pos hc] at h'
        cases h'
        exact Or.inr ⟨hc.1, hc.2, List.mem_cons_self _ _⟩
      · rw [if_neg hc] at h'
        exact Or.inl h'
    · exact Or.inr ⟨h'.1, h'.2.1, List.mem_cons_of_mem _ h'.2.2⟩

/-- A `some` result of `lastPresentParent` is concretely present. -/
theorem lastPresentParent_hasAI (hasAI : String → Bool) (M : MapTermGraph)
    (ps : List String) (q : String) (h : lastPresentParent hasAI M ps = some q) :
    hasAI q = true := by
  rcases lastPresentParent_spec hasAI M ps none q h with h' | h'
  · exact absurd h' (by simp)
  · exact h'.1

/-- A substitute returned by `#substituteTerm` is always concretely present. -/
theorem substituteTerm_hasAI (hasAI : String → Bool) (M : MapTermGraph) :
    ∀ (fuel : Nat) (t s : String),
      substituteTerm hasAI M fuel t = some s → hasAI s = true := by
  intro fuel
  induction fuel with
  | zero => intro t s h; simp [substituteTerm] at h
  | succ n ih =>
    intro t s h
    unfold substituteTerm at h
    split at h
    · exact absurd h (by simp)
    · split at h
      · exact absurd h (by simp)
      · split at h
        next fp hl =>
          split at h
          · exact ih _ s h
          · cases h
            exact lastPresentParent_hasAI hasAI M _ s hl
        next hl => exact ih _ s h

/-- Membership in the upserted marker-term map comes from the old map or is
the upserted key. -/
theorem addMarkerTerm_keys (m : List (String × List String)) (mt dt : String) :
    ∀ pr ∈ addMarkerTerm m mt dt, pr.1 = mt ∨ ∃ v, (pr.1, v) ∈ m := by
  induction m with
  | nil =>
    intro pr h
    simp only [addMarkerTerm, List.mem_singleton] at h
    subst h; exact Or.inl rfl
  | cons hd tl ih =>
    intro pr h
    obtain ⟨k, v⟩ := hd
    simp only [addMarkerTerm] at h
    by_cases hk : k = mt
    · rw [if_pos hk] at h
      rcases List.mem_cons.mp h with h' | h'
      · subst h'; exact Or.inl hk
      · exact Or.inr ⟨pr.2, List.mem_cons_of_mem _ (by simpa using h')⟩
    · rw [if_neg hk] at h
      rcases List.mem_cons.mp h with h' | h'
      · subst h'; exact Or.inr ⟨v, List.mem_cons_self _ _⟩
      · rcases ih pr h' with h'' | ⟨w, hw⟩
        · exact Or.inl h''
        · exact Or.inr ⟨w, List.mem_cons_of_mem _ hw⟩

/-- One validation step only produces concretely present marker-term keys. -/
theorem validateStep_present (hasAI : String → Bool) (M : MapTermGraph)
    (fuel : Nat) (m : List (String × List String))
    (hm : ∀ pr ∈ m, hasAI pr.1 = true) (rawTerm : String) :
    ∀ pr ∈ validateStep hasAI M fuel m rawTerm, hasAI pr.1 = true := by
  intro pr h
  unfold validateStep at h
  by_cases h0 : jsTrim rawTerm = ""
  · rw [if_pos h0] at h; exact hm pr h
  · rw [if_neg h0] at h
    by_cases h1 : hasAI (jsTrim rawTerm)
    · rw [if_pos h1] at h
      rcases addMarkerTerm_keys _ _ _ pr h with h' | ⟨v, hv⟩
      · rw [h']; exact h1
      · exact hm (pr.1, v) hv
    · rw [if_neg h1] at h
      cases hs : substituteTerm hasAI M fuel (jsTrim rawTerm) with
      | none => rw [hs] at h; exact hm pr h
      | some s =>
        rw [hs] at h
        rcases addMarkerTerm_keys _ _ _ pr h with h' | ⟨v, hv⟩
        · rw [h']; exact substituteTerm_hasAI hasAI M fuel _ s hs
        · exact hm (pr.1, v) hv

/-- Folding validation steps preserves key presence. -/
theorem validated_foldl_present (hasAI : String → Bool) (M : MapTermGraph)
    (fuel : Nat) :
    ∀ (l : List String) (acc : List (String × List String)),
      (∀ pr ∈ acc, hasAI pr.1 = true) →
      ∀ pr ∈ l.foldl (validateStep hasAI M fuel) acc, hasAI pr.1 = true := by
  intro l
  induction l with
  | nil => intro acc hacc pr h; exact hacc pr h
  | cons hd tl ih =>
    intro acc hacc pr h
    simp only [List.foldl_cons] at h
    exact ih _ (validateStep_present hasAI M fuel acc hacc hd) pr h

/-- C9: every marker term produced by term validation — every key of the
markerTerm-to-originalTerms map, hence every element of
`DatasetClusterSet.markerTerms` — satisfies the feature-presence oracle
`hasAnatomicalIdentifier`, and substitution never returns a term that does
not. -/
theorem validated_marker_terms_concretely_present
    (hasAI : String → Bool) (M : MapTermGraph) (fuel : Nat) (terms : List String) :
    (∀ pr ∈ validatedMarkerTerms hasAI M fuel terms, hasAI pr.1 = true) ∧
    (∀ t s, substituteTerm hasAI M fuel t = some s → hasAI s = true) := by
  constructor
  · intro pr h
    exact validated_foldl_present hasAI M fuel terms [] (by simp) pr h
  · intro t s h
    exact substituteTerm_hasAI hasAI M fuel t s h

/-- Concrete feature-presence oracle for the substitution examples: the two
parents and the root are present on the map, the dataset term T is not. -/
def exHasAI : String → Bool :=
  fun t => t == "P1" || t == "P2" || t == ANATOMICAL_ROOT

/-- Concrete term graph for the substitution examples.  Depths are the
breadth-first distances from the root: the dataset term T has two parents,
P1 at depth 2 (reached through A) and P2 at depth 1. -/
def exGraph : MapTermGraph where
  parents := fun t =>
    if t = "T" then ["P1", "P2"]
    else if t = "P1" then ["A"]
    else if t = "A" ∨ t = "P2" then [ANATOMICAL_ROOT]
    else []
  depth := fun t =>
    if t = ANATOMICAL_ROOT then 0
    else if t = "A" ∨ t = "P2" then 1
    else if t = "P1" ∨ t = "T" then 2
    else -1
  maxDepth := 2

/-- C1 (code bug): at the failing input, the term T is not concretely present
and has the two concretely present direct parents P1 (depth 2) and P2
(depth 1); the claim (and the spec) requires the parent with the greatest
depth, P1, but `#substituteTerm` returns P2, the last concretely present
parent, because its `const maxDepth = -1` bound is never updated inside the
selection loop. -/
theorem substituteTerm_returns_last_present_parent_at_example :
    substituteTerm exHasAI exGraph 5 "T" = some "P2" ∧
    exHasAI "T" = false ∧
    exHasAI "P1" = true ∧ exHasAI "P2" = true ∧
    exGraph.parents "T" = ["P1", "P2"] ∧
    exGraph.depth "P1" = 2 ∧ exGraph.depth "P2" = 1 := by
  refine ⟨?_, ?_, ?_, ?_, ?_, ?_, ?_⟩ <;> decide

/-- The zoom band the spec describes for a node depth: `z = MIN_MARKER_ZOOM +
floor((MAX_MARKER_ZOOM - MIN_MARKER_ZOOM) * depth / maxDepth)` with the floor
of the exact rational quotient, a zoom below 0 yielding the band from 0 to 1
and a zoom at or above `MAX_MARKER_ZOOM` yielding the degenerate band. -/
def specZoomBand (maxDepth depth : Int) : Int × Int :=
  let z : Int :=
    MIN_MARKER_ZOOM + ⌊((MAX_MARKER_ZOOM - MIN_MARKER_ZOOM : Int) * depth : ℚ) / (maxDepth : ℚ)⌋
  if z < 0 then (0, 1)
  else if z ≥ MAX_MARKER_ZOOM then (MAX_MARKER_ZOOM, MAX_MARKER_ZOOM)
  else (z, z + 1)

/-- Floor division on integers agrees with the floor of the rational
quotient when the divisor is positive. -/
theorem fdiv_eq_rat_floor (a b : Int) (hb : 0 < b) : a.fdiv b = ⌊(a : ℚ) / b⌋ := by
  have h1 : a.fdiv b = a / b := Int.fdiv_eq_ediv a hb.le
  have h2 : ⌊((a : ℚ) / ((b.toNat : ℤ) : ℚ))⌋ = a / (b.toNat : ℤ) :=
    Rat.floor_intCast_div_natCast a b.toNat
  rw [h1, ← Int.toNat_of_nonneg hb.le, h2]

/-- C7: for every node depth, the default zoom band computed by
`#depthToZoomRange` equals the band the spec describes, provided the graph
has positive maximum depth (with `maxDepth = 0` the JS code divides by zero
and produces a NaN band, outside the integer model). -/
theorem depthToZoomRange_matches_spec_band (maxDepth depth : Int)
    (h : 0 < maxDepth) :
    depthToZoomRange maxDepth depth = specZoomBand maxDepth depth := by
  unfold depthToZoomRange specZoomBand
  rw [fdiv_eq_rat_floor _ _ h]
  have hc : (((MAX_MARKER_ZOOM - MIN_MARKER_ZOOM) * depth : Int) : ℚ)
      = ((MAX_MARKER_ZOOM - MIN_MARKER_ZOOM : Int) : ℚ) * (depth : ℚ) := by
    push_cast; ring
  rw [hc]

/-- Witness for C7 at depth 7 with maximum depth 3. -/
theorem depthToZoomRange_matches_spec_band_witness :
    0 < (3 : Int) ∧ depthToZoomRange 3 7 = specZoomBand 3 7 :=
  ⟨by decide, depthToZoomRange_matches_spec_band 3 7 (by decide)⟩

/-- Witness for C9: the theorem applied to the example graph shows the
substitute found for T is concretely present. -/
theorem validated_marker_terms_concretely_present_witness :
    exHasAI "P2" = true :=
  (validated_marker_terms_concretely_present exHasAI exGraph 5 ["T"]).2 "T" "P2"
    (by decide)

/-! ## The connected term subgraph and the cluster construction

`DiGraph` and its `connectedSubgraph` (src/knowledge/graphs) are not among
the sources, so a constructed subgraph is any `SubGraph` satisfying
`ConnectedSubgraphSpec`, modelled from the spec (sections 3 and 4.1). -/

/-- A dataset-connected term subgraph: its node list (in the order exposed by
`nodes()`) and, for each node, its parents within the subgraph. -/
structure SubGraph where
  nodes : List String
  parentsOf : String → List String

/-- The children of a term within the subgraph. -/
def SubGraph.childrenOf (CG : SubGraph) (t : String) : List String :=
  CG.nodes.filter (fun c => decide (t ∈ CG.parentsOf c))

/-- The degree of a term: the number of subgraph edges touching it. -/
def SubGraph.degree (CG : SubGraph) (t : String) : Nat :=
  (CG.parentsOf t).length + (CG.childrenOf t).length

/-- Modelled from the spec: `connectedSubgraph` (src/knowledge/graphs, not in
the sources) returns the minimal subgraph containing the root, every input
term, and every ancestor chain connecting each input term to the root, with
`parents` restricted to the subgraph. -/
structure ConnectedSubgraphSpec (M : MapTermGraph) (terms : List String)
    (CG : SubGraph) : Prop where
  root_mem : ANATOMICAL_ROOT ∈ CG.nodes
  terms_mem : ∀ t ∈ terms, t ∈ CG.nodes
  induced : ∀ n ∈ CG.nodes, CG.parentsOf n = M.parents n
  closed : ∀ n ∈ CG.nodes, ∀ p ∈ CG.parentsOf n, p ∈ CG.nodes
  root_no_parents : CG.parentsOf ANATOMICAL_ROOT = []
  nonroot_parent : ∀ n ∈ CG.nodes, n ≠ ANATOMICAL_ROOT → CG.parentsOf n ≠ []
  minimal : ∀ n ∈ CG.nodes, n ≠ ANATOMICAL_ROOT → n ∉ terms →
    ∃ c ∈ CG.nodes, n ∈ CG.parentsOf c

/-- The term hierarchy is acyclic: a rank strictly decreasing along parent
edges of the subgraph (for instance the longest distance to the root). -/
@[reducible] def RankOK (CG : SubGraph) (rk : String → Nat) : Prop :=
  ∀ n ∈ CG.nodes, ∀ p ∈ CG.parentsOf n, rk p < rk n

/-- The `DatasetCluster` record (datasetcluster.ts lines 28-33). -/
structure DatasetCluster where
  markerTerm : String
  datasetId : String
  minZoom : Int
  maxZoom : Int
deriving DecidableEq

/-- The mutable state of a `DatasetClusterSet` under construction: the
`#clustersByTerm` map (as a function, since its keys are exactly the record
marker terms) and the `#descendents` map (as an insertion-ordered
association list, since the aggregation layer iterates its entries). -/
structure ClusterState where
  clusters : String → Option DatasetCluster
  descendents : List (String × List String)

/-- Lookup in an insertion-ordered association list (JS `Map.get`). -/
def alistGet (m : List (String × List String)) (k : String) : Option (List String) :=
  match m with
  | [] => none
  | (k', v) :: rest => if k' = k then some v else alistGet rest k

/-- Update in an insertion-ordered association list (JS `Map.set`). -/
def alistSet (m : List (String × List String)) (k : String) (v : List String) :
    List (String × List String) :=
  match m with
  | [] => [(k, v)]
  | (k', v') :: rest =>
    if k' = k then (k, v) :: rest else (k', v') :: alistSet rest k v

/-- JS `Set.union`: the elements of the first set followed by the elements
of the second not already present. -/
def setUnion (a b : List String) : List String :=
  a ++ b.filter (fun x => decide (x ∉ a))

/-- Store a cluster record under a term. -/
def setCluster (st : ClusterState) (t : String) (c : DatasetCluster) : ClusterState :=
  { st with clusters := fun u => if u = t then some c else st.clusters u }

/-- Delete the cluster record of a term (JS `Map.delete`). -/
def deleteCluster (st : ClusterState) (t : String) : ClusterState :=
  { st with clusters := fun u => if u = t then none else st.clusters u }

/-- `DatasetClusterSet.#setZoomFromParents` (datasetcluster.ts lines
138-160), with explicit fuel for the recursion along parent edges (the
subgraph is acyclic, so the recursion depth is bounded by any rank).  The JS
code carries the cluster object by reference; since `#clustersByTerm` maps
each term to the record whose `markerTerm` is that term and the field is
never reassigned, the state is addressed by the current term here.
`terminal` is the `markerTerm` parameter of the source: the terminal node
the walk started from, whose `terms` node attribute is accumulated into the
descendents entry of every visited term. -/
def setZoomFromParents (CG : SubGraph) (termsAttr : String → List String)
    (hasAttr : String → Bool) :
    Nat → ClusterState → String → String → ClusterState
  | 0, st, _, _ => st
  | fuel+1, st, current, terminal =>
    let ds := (alistGet st.descendents current).getD []
    let st' :=
      if hasAttr terminal then
        { st with descendents := alistSet st.descendents current (setUnion ds (termsAttr terminal)) }
      else st
    if current = ANATOMICAL_ROOT then
      match st'.clusters current with
      | some c => setCluster st' current { c with minZoom := 0 }
      | none => st'
    else
      (CG.parentsOf current).foldl (fun st'' p =>
        match st''.clusters current, st''.clusters p with
        | some cc, some pc =>
          let st''' :=
            if pc.maxZoom < cc.minZoom then
              setCluster st'' p { pc with maxZoom := cc.minZoom }
            else st''
          setZoomFromParents CG termsAttr hasAttr fuel st''' p terminal
        | _, _ => st'') st'

/-- The terminal filter of the constructor (datasetcluster.ts lines 81-83):
subgraph nodes other than the root with subgraph degree 1. -/
def terminalNodes (CG : SubGraph) : List String :=
  CG.nodes.filter (fun t => !(t == ANATOMICAL_ROOT) && (CG.degree t == 1))

/-- One iteration of the terminal loop (datasetcluster.ts lines 84-86):
force `maxZoom = MAX_MARKER_ZOOM` and propagate upward. -/
def terminalStep (CG : SubGraph) (termsAttr : String → List String)
    (hasAttr : String → Bool) (fuel : Nat) (st : ClusterState) (t : String) :
    ClusterState :=
  match st.clusters t with
  | some c =>
    let st' := setCluster st t { c with maxZoom := MAX_MARKER_ZOOM }
    setZoomFromParents CG termsAttr hasAttr fuel st' t t
  | none => st

/-- `DatasetClusterSet.#setMinZoomFromRoot` (datasetcluster.ts lines
125-136), with fuel for the recursion along child edges: a term with no
concrete feature loses its record and its children become visible from zoom
0.  When a child record is already deleted the JS code would throw on
`cluster.minZoom = 0`; that unreachable-in-construction case leaves the
state unchanged here. -/
def setMinZoomFromRoot (CG : SubGraph) (hasAI : String → Bool) :
    Nat → ClusterState → String → ClusterState
  | 0, st, _ => st
  | fuel+1, st, term =>
    if hasAI term then st
    else
      let st' := deleteCluster st term
      (CG.childrenOf term).foldl (fun st'' child =>
        let st''' :=
          match st''.clusters child with
          | some c => setCluster st'' child { c with minZoom := 0 }
          | none => st''
        setMinZoomFromRoot CG hasAI fuel st''' child) st'

/-- The outputs of a constructed `DatasetClusterSet`: the `#clustersByTerm`
map, the `clusters` getter (map values in insertion order, which is the
order of `nodes()`), the `descendents` map and the `markerTerms` getter. -/
structure DatasetClusterSetResult where
  clustersMap : String → Option DatasetCluster
  clustersList : List DatasetCluster
  descendents : List (String × List String)
  markerTerms : List String

/-- The `DatasetClusterSet` constructor (datasetcluster.ts lines 53-89):
validate and substitute the dataset terms, attach to every subgraph node its
set of original terms (its substituted-in set for a marker term, the
singleton of itself otherwise), assign depth-derived zoom bands, force the
terminals and propagate upward, then prune from the root.  `CG` stands for
the connected subgraph spanning the root and the retained marker terms. -/
def dcsTermsAttr (hasAI : String → Bool) (M : MapTermGraph) (fuel : Nat)
    (terms : List String) : String → List String :=
  fun n =>
    match alistGet (validatedMarkerTerms hasAI M fuel terms) n with
    | some s => s
    | none => [n]

/-- The `#clustersByTerm` map right after its construction from the
depth-derived zoom bands (datasetcluster.ts lines 71-80). -/
def dcsInit (M : MapTermGraph) (CG : SubGraph) (datasetId : String) : ClusterState :=
  { clusters := fun t =>
      if t ∈ CG.nodes then
        some { markerTerm := t, datasetId := datasetId,
               minZoom := (depthToZoomRange M.maxDepth (M.depth t)).1,
               maxZoom := (depthToZoomRange M.maxDepth (M.depth t)).2 }
      else none,
    descendents := [] }

/-- The state after the terminal loop (datasetcluster.ts lines 81-87). -/
def dcsAfterTerminals (hasAI : String → Bool) (M : MapTermGraph) (CG : SubGraph)
    (fuel : Nat) (datasetId : String) (terms : List String) : ClusterState :=
  (terminalNodes CG).foldl
    (terminalStep CG (dcsTermsAttr hasAI M fuel terms)
      (fun n => CG.nodes.contains n) fuel)
    (dcsInit M CG datasetId)

/-- The state after the pruning pass (datasetcluster.ts line 88). -/
def dcsFinal (hasAI : String → Bool) (M : MapTermGraph) (CG : SubGraph)
    (fuel : Nat) (datasetId : String) (terms : List String) : ClusterState :=
  setMinZoomFromRoot CG hasAI fuel
    (dcsAfterTerminals hasAI M CG fuel datasetId terms) ANATOMICAL_ROOT

def buildDatasetClusterSet (hasAI : String → Bool) (M : MapTermGraph)
    (CG : SubGraph) (fuel : Nat) (datasetId : String) (terms : List String) :
    DatasetClusterSetResult :=
  { clustersMap := (dcsFinal hasAI M CG fuel datasetId terms).clusters,
    clustersList := CG.nodes.filterMap (dcsFinal hasAI M CG fuel datasetId terms).clusters,
    descendents := (dcsFinal hasAI M CG fuel datasetId terms).descendents,
    markerTerms := (validatedMarkerTerms hasAI M fuel terms).map (fun pr => pr.1) }

/-! ## Invariants of the construction -/

/-- Every subgraph node has a cluster record (true from initialization until
the pruning pass). -/
def Domain (CG : SubGraph) (st : ClusterState) : Prop :=
  ∀ t ∈ CG.nodes, (st.clusters t).isSome = true

/-- The per-record zoom invariant of the spec:
`0 ≤ minZoom ≤ maxZoom ≤ MAX_MARKER_ZOOM`. -/
def ZoomInv (st : ClusterState) : Prop :=
  ∀ t c, st.clusters t = some c →
    0 ≤ c.minZoom ∧ c.minZoom ≤ c.maxZoom ∧ c.maxZoom ≤ MAX_MARKER_ZOOM

/-- Construction steps never create records, never change the identifying
fields, never lower a `maxZoom` and never raise a `minZoom`. -/
def Mono (st st' : ClusterState) : Prop :=
  ∀ t c', st'.clusters t = some c' → ∃ c, st.clusters t = some c ∧
    c'.markerTerm = c.markerTerm ∧ c'.datasetId = c.datasetId ∧
    c.maxZoom ≤ c'.maxZoom ∧ c'.minZoom ≤ c.minZoom

/-- `Mono` together with record preservation (no deletions). -/
def MonoKeep (st st' : ClusterState) : Prop :=
  Mono st st' ∧ ∀ t, (st.clusters t).isSome = true → (st'.clusters t).isSome = true

/-- The monotone-propagation constraint between a node and one parent. -/
def Constraint (st : ClusterState) (n p : String) : Prop :=
  ∀ cn cp, st.clusters n = some cn → st.clusters p = some cp →
    cn.minZoom ≤ cp.maxZoom

/-- The root record, if present, is visible from zoom 0. -/
def RootZero (st : ClusterState) : Prop :=
  ∀ c, st.clusters ANATOMICAL_ROOT = some c → c.minZoom = 0

/-- A record, if present, carries the terminal sentinel. -/
def MaxSentinel (st : ClusterState) (t : String) : Prop :=
  ∀ c, st.clusters t = some c → c.maxZoom = MAX_MARKER_ZOOM

theorem mono_refl (st : ClusterState) : Mono st st := by
  intro t c' h
  exact ⟨c', h, rfl, rfl, le_refl _, le_refl _⟩

theorem mono_trans {s1 s2 s3 : ClusterState} (h12 : Mono s1 s2) (h23 : Mono s2 s3) :
    Mono s1 s3 := by
  intro t c3 h3
  obtain ⟨c2, h2, e1, e2, l1, l2⟩ := h23 t c3 h3
  obtain ⟨c1, h1, e1', e2', l1', l2'⟩ := h12 t c2 h2
  exact ⟨c1, h1, e1.trans e1', e2.trans e2', l1'.trans l1, l2.trans l2'⟩

theorem monokeep_refl (st : ClusterState) : MonoKeep st st :=
  ⟨mono_refl st, fun _ h => h⟩

theorem monokeep_trans {s1 s2 s3 : ClusterState} (h12 : MonoKeep s1 s2)
    (h23 : MonoKeep s2 s3) : MonoKeep s1 s3 :=
  ⟨mono_trans h12.1 h23.1, fun t h => h23.2 t (h12.2 t h)⟩

theorem constraint_of_mono {s s' : ClusterState} {n p : String}
    (hm : Mono s s') (hc : Constraint s n p) : Constraint s' n p := by
  intro cn cp hn hp
  obtain ⟨cn0, hn0, _, _, _, lmin⟩ := hm n cn hn
  obtain ⟨cp0, hp0, _, _, lmax, _⟩ := hm p cp hp
  exact le_trans lmin (le_trans (hc cn0 cp0 hn0 hp0) lmax)

theorem rootzero_of_mono {s s' : ClusterState} (hm : Mono s s')
    (hinv : ZoomInv s') (hr : RootZero s) : RootZero s' := by
  intro c h
  obtain ⟨c0, h0, _, _, _, lmin⟩ := hm _ c h
  have h1 := hr c0 h0
  have h2 := (hinv _ c h).1
  omega

theorem maxsentinel_of_mono {s s' : ClusterState} {t : String} (hm : Mono s s')
    (hinv : ZoomInv s') (hr : MaxSentinel s t) : MaxSentinel s' t := by
  intro c h
  obtain ⟨c0, h0, _, _, lmax, _⟩ := hm _ c h
  have h1 := hr c0 h0
  have h2 := (hinv _ c h).2.2
  omega

theorem domain_of_monokeep {CG : SubGraph} {s s' : ClusterState}
    (hm : MonoKeep s s') (hd : Domain CG s) : Domain CG s' :=
  fun t ht => hm.2 t (hd t ht)

/-- Ancestor-or-self reachability along subgraph parent edges. -/
inductive Above (CG : SubGraph) : String → String → Prop
  | refl (t : String) : Above CG t t
  | step {t p n : String} : p ∈ CG.parentsOf t → Above CG p n → Above CG t n

theorem above_rank {CG : SubGraph} {rk : String → Nat} (hrk : RankOK CG rk)
    (hclosed : ∀ n ∈ CG.nodes, ∀ p ∈ CG.parentsOf n, p ∈ CG.nodes) :
    ∀ {t n : String}, Above CG t n → t ∈ CG.nodes → rk n ≤ rk t ∧ n ∈ CG.nodes := by
  intro t n h
  induction h with
  | refl t => intro ht; exact ⟨le_refl _, ht⟩
  | @step t' p' n' hp _ ih =>
    intro ht
    have hpn : p' ∈ CG.nodes := hclosed t' ht p' hp
    have hr := ih hpn
    exact ⟨le_trans hr.1 (le_of_lt (hrk t' ht p' hp)), hr.2⟩

/-- In a ranked subgraph where every non-root node has a parent, every node
reaches the root along parent edges. -/
theorem above_root {CG : SubGraph} {rk : String → Nat} (hrk : RankOK CG rk)
    (hclosed : ∀ n ∈ CG.nodes, ∀ p ∈ CG.parentsOf n, p ∈ CG.nodes)
    (hnrp : ∀ n ∈ CG.nodes, n ≠ ANATOMICAL_ROOT → CG.parentsOf n ≠ []) :
    ∀ t ∈ CG.nodes, Above CG t ANATOMICAL_ROOT := by
  have H : ∀ k, ∀ t ∈ CG.nodes, rk t ≤ k → Above CG t ANATOMICAL_ROOT := by
    intro k
    induction k with
    | zero =>
      intro t ht hk
      by_cases hr : t = ANATOMICAL_ROOT
      · subst hr; exact Above.refl _
      · obtain ⟨p, hp⟩ := List.exists_mem_of_ne_nil _ (hnrp t ht hr)
        exact absurd (hrk t ht p hp) (by omega)
    | succ k ih =>
      intro t ht hk
      by_cases hr : t = ANATOMICAL_ROOT
      · subst hr; exact Above.refl _
      · obtain ⟨p, hp⟩ := List.exists_mem_of_ne_nil _ (hnrp t ht hr)
        have hpn : p ∈ CG.nodes := hclosed t ht p hp
        have hple : rk p ≤ k := by have := hrk t ht p hp; omega
        exact Above.step hp (ih p hpn hple)
  exact fun t ht => H (rk t) t ht (le_refl _)

theorem setCluster_self (st : ClusterState) (t : String) (c : DatasetCluster) :
    (setCluster st t c).clusters t = some c := by
  simp [setCluster]

theorem setCluster_other (st : ClusterState) (t : String) (c : DatasetCluster)
    (u : String) (h : u ≠ t) : (setCluster st t c).clusters u = st.clusters u := by
  simp [setCluster, h]

theorem deleteCluster_self (st : ClusterState) (t : String) :
    (deleteCluster st t).clusters t = none := by
  simp [deleteCluster]

theorem deleteCluster_other (st : ClusterState) (t u : String) (h : u ≠ t) :
    (deleteCluster st t).clusters u = st.clusters u := by
  simp [deleteCluster, h]

theorem monokeep_of_clusters_eq {s s' : ClusterState} (h : s'.clusters = s.clusters) :
    MonoKeep s s' := by
  constructor
  · intro t c' hc; rw [h] at hc
    exact ⟨c', hc, rfl, rfl, le_refl _, le_refl _⟩
  · intro t ht; rw [h]; exact ht

theorem zoominv_of_clusters_eq {s s' : ClusterState} (h : s'.clusters = s.clusters)
    (hi : ZoomInv s) : ZoomInv s' := by
  intro t c hc; rw [h] at hc; exact hi t c hc

/-- The descendents accumulation at the head of `#setZoomFromParents`
(datasetcluster.ts lines 141-148). -/
def descStep (termsAttr : String → List String) (hasAttr : String → Bool)
    (st : ClusterState) (cur terminal : String) : ClusterState :=
  let ds := (alistGet st.descendents cur).getD []
  if hasAttr terminal then
    { st with descendents := alistSet st.descendents cur (setUnion ds (termsAttr terminal)) }
  else st

theorem descStep_clusters (termsAttr : String → List String) (hasAttr : String → Bool)
    (st : ClusterState) (cur terminal : String) :
    (descStep termsAttr hasAttr st cur terminal).clusters = st.clusters := by
  unfold descStep
  split <;> rfl

/-- One iteration of the parent loop of `#setZoomFromParents`
(datasetcluster.ts lines 153-159): raise the parent `maxZoom` to the child
`minZoom` when needed, then recurse into the parent. -/
def parentStep (CG : SubGraph) (termsAttr : String → List String)
    (hasAttr : String → Bool) (fuel : Nat) (cur terminal : String)
    (st : ClusterState) (p : String) : ClusterState :=
  match st.clusters cur, st.clusters p with
  | some cc, some pc =>
    let st' :=
      if pc.maxZoom < cc.minZoom then
        setCluster st p { pc with maxZoom := cc.minZoom }
      else st
    setZoomFromParents CG termsAttr hasAttr fuel st' p terminal
  | _, _ => st

/-- Unfolding of `setZoomFromParents` at positive fuel in terms of the named
steps. -/
theorem szfp_succ_eq (CG : SubGraph) (termsAttr : String → List String)
    (hasAttr : String → Bool) (fuel : Nat) (st : ClusterState)
    (cur terminal : String) :
    setZoomFromParents CG termsAttr hasAttr (fuel+1) st cur terminal =
      (if cur = ANATOMICAL_ROOT then
         match (descStep termsAttr hasAttr st cur terminal).clusters cur with
         | some c => setCluster (descStep termsAttr hasAttr st cur terminal) cur
             { c with minZoom := 0 }
         | none => descStep termsAttr hasAttr st cur terminal
       else
         (CG.parentsOf cur).foldl
           (parentStep CG termsAttr hasAttr fuel cur terminal)
           (descStep termsAttr hasAttr st cur terminal)) := rfl

/-- Master lemma for one upward propagation walk: given enough fuel, the walk
is monotone and keeps every record, preserves the zoom invariant, establishes
the parent constraint on every ancestor-or-self of the start node, and zeroes
the root minimum whenever the walk reaches the root. -/
theorem szfp_master (CG : SubGraph) (termsAttr : String → List String)
    (hasAttr : String → Bool) (rk : String → Nat)
    (hrk : RankOK CG rk)
    (hclosed : ∀ n ∈ CG.nodes, ∀ p ∈ CG.parentsOf n, p ∈ CG.nodes)
    (hrootnp : CG.parentsOf ANATOMICAL_ROOT = []) :
    ∀ (fuel : Nat) (st : ClusterState) (cur terminal : String),
      cur ∈ CG.nodes → rk cur < fuel → Domain CG st → ZoomInv st →
      MonoKeep st (setZoomFromParents CG termsAttr hasAttr fuel st cur terminal) ∧
      ZoomInv (setZoomFromParents CG termsAttr hasAttr fuel st cur terminal) ∧
      (∀ n, Above CG cur n → n ≠ ANATOMICAL_ROOT →
        ∀ p ∈ CG.parentsOf n,
          Constraint (setZoomFromParents CG termsAttr hasAttr fuel st cur terminal) n p) ∧
      (Above CG cur ANATOMICAL_ROOT →
        RootZero (setZoomFromParents CG termsAttr hasAttr fuel st cur terminal)) := by
  intro fuel
  induction fuel with
  | zero =>
    intro st cur terminal hcur hflt _ _
    exact absurd hflt (Nat.not_lt_zero _)
  | succ fuel ih =>
    intro st cur terminal hcur hflt hdom hinv
    rw [szfp_succ_eq]
    have hd1 : (descStep termsAttr hasAttr st cur terminal).clusters = st.clusters :=
      descStep_clusters termsAttr hasAttr st cur terminal
    have hdomD : Domain CG (descStep termsAttr hasAttr st cur terminal) := by
      intro t ht; rw [hd1]; exact hdom t ht
    have hinvD : ZoomInv (descStep termsAttr hasAttr st cur terminal) :=
      zoominv_of_clusters_eq hd1 hinv
    have hmkD : MonoKeep st (descStep termsAttr hasAttr st cur terminal) :=
      monokeep_of_clusters_eq hd1
    by_cases hroot : cur = ANATOMICAL_ROOT
    · rw [if_pos hroot]
      rcases hc : (descStep termsAttr hasAttr st cur terminal).clusters cur with _ | c
      · exact absurd (hdomD cur hcur) (by simp [hc])
      · have hinv_c := hinvD cur c hc
        refine ⟨monokeep_trans hmkD ⟨?_, ?_⟩, ?_, ?_, ?_⟩
        · intro t c' h'
          by_cases htc : t = cur
          · subst htc
            rw [setCluster_self] at h'
            cases Option.some.inj h'
            exact ⟨c, hc, rfl, rfl, le_refl _, hinv_c.1⟩
          · rw [setCluster_other _ _ _ _ htc] at h'
            exact ⟨c', h', rfl, rfl, le_refl _, le_refl _⟩
        · intro t ht
          by_cases htc : t = cur
          · subst htc; rw [setCluster_self]; rfl
          · rw [setCluster_other _ _ _ _ htc]; exact ht
        · intro t c' h'
          by_cases htc : t = cur
          · subst htc
            rw [setCluster_self] at h'
            cases Option.some.inj h'
            refine ⟨le_refl _, ?_, hinv_c.2.2⟩
            simp only
            omega
          · rw [setCluster_other _ _ _ _ htc] at h'
            exact hinvD t c' h'
        · intro n han hnr
          cases han with
          | refl => exact absurd hroot (by rw [hroot] at hnr ⊢; exact hnr)
          | step hp hab =>
            rw [hroot, hrootnp] at hp
            exact absurd hp (List.not_mem_nil _)
        · intro _ c' h'
          rw [← hroot] at h'
          rw [setCluster_self] at h'
          cases Option.some.inj h'
          rfl
    · rw [if_neg hroot]
      have pstep : ∀ (p : String) (s : ClusterState), p ∈ CG.parentsOf cur →
          Domain CG s → ZoomInv s →
          MonoKeep s (parentStep CG termsAttr hasAttr fuel cur terminal s p) ∧
          ZoomInv (parentStep CG termsAttr hasAttr fuel cur terminal s p) ∧
          Constraint (parentStep CG termsAttr hasAttr fuel cur terminal s p) cur p ∧
          (∀ n, Above CG p n → n ≠ ANATOMICAL_ROOT → ∀ q ∈ CG.parentsOf n,
            Constraint (parentStep CG termsAttr hasAttr fuel cur terminal s p) n q) ∧
          (Above CG p ANATOMICAL_ROOT →
            RootZero (parentStep CG termsAttr hasAttr fuel cur terminal s p)) := by
        intro p s hp hdoms hinvs
        have hpn : p ∈ CG.nodes := hclosed cur hcur p hp
        have hrkcur := hrk cur hcur p hp
        have hrkp : rk p < fuel := by
          have := Nat.lt_succ_iff.mp hflt
          omega
        have hcurp : cur ≠ p := by
          intro he
          rw [he] at hrkcur
          exact absurd hrkcur (lt_irrefl _)
        rcases hsc : s.clusters cur with _ | cc
        · exact absurd (hdoms cur hcur) (by simp [hsc])
        rcases hsp : s.clusters p with _ | pc
        · exact absurd (hdoms p hpn) (by simp [hsp])
        have hinv_cc := hinvs cur cc hsc
        have hinv_pc := hinvs p pc hsp
        have heq : parentStep CG termsAttr hasAttr fuel cur terminal s p =
            setZoomFromParents CG termsAttr hasAttr fuel
              (if pc.maxZoom < cc.minZoom then
                setCluster s p { pc with maxZoom := cc.minZoom }
              else s) p terminal := by
          unfold parentStep
          rw [hsc, hsp]
        rw [heq]
        have hmk1 : MonoKeep s
            (if pc.maxZoom < cc.minZoom then
              setCluster s p { pc with maxZoom := cc.minZoom } else s) := by
          by_cases hlt : pc.maxZoom < cc.minZoom
          · rw [if_pos hlt]
            constructor
            · intro t c' h'
              by_cases htp : t = p
              · subst htp
                rw [setCluster_self] at h'
                cases Option.some.inj h'
                exact ⟨pc, hsp, rfl, rfl, le_of_lt hlt, le_refl _⟩
              · rw [setCluster_other _ _ _ _ htp] at h'
                exact ⟨c', h', rfl, rfl, le_refl _, le_refl _⟩
            · intro t ht
              by_cases htp : t = p
              · subst htp; rw [setCluster_self]; rfl
              · rw [setCluster_other _ _ _ _ htp]; exact ht
          · rw [if_neg hlt]; exact monokeep_refl s
        have hinv1 : ZoomInv
            (if pc.maxZoom < cc.minZoom then
              setCluster s p { pc with maxZoom := cc.minZoom } else s) := by
          by_cases hlt : pc.maxZoom < cc.minZoom
          · rw [if_pos hlt]
            intro t c' h'
            by_cases htp : t = p
            · subst htp
              rw [setCluster_self] at h'
              cases Option.some.inj h'
              refine ⟨hinv_pc.1, ?_, ?_⟩ <;> simp only <;> omega
            · rw [setCluster_other _ _ _ _ htp] at h'
              exact hinvs t c' h'
          · rw [if_neg hlt]; exact hinvs
        have hcon1 : Constraint
            (if pc.maxZoom < cc.minZoom then
              setCluster s p { pc with maxZoom := cc.minZoom } else s) cur p := by
          by_cases hlt : pc.maxZoom < cc.minZoom
          · rw [if_pos hlt]
            intro cn cp h1 h2
            rw [setCluster_other _ _ _ _ hcurp, hsc] at h1
            rw [setCluster_self] at h2
            cases Option.some.inj h1
            cases Option.some.inj h2
            simp only
            omega
          · rw [if_neg hlt]
            intro cn cp h1 h2
            rw [hsc] at h1
            rw [hsp] at h2
            cases Option.some.inj h1
            cases Option.some.inj h2
            omega
        obtain ⟨mkR, invR, estR, rzR⟩ :=
          ih _ p terminal hpn hrkp (domain_of_monokeep hmk1 hdoms) hinv1
        exact ⟨monokeep_trans hmk1 mkR, invR,
          constraint_of_mono mkR.1 hcon1, estR, rzR⟩
      have fold : ∀ (l : List String), (∀ p ∈ l, p ∈ CG.parentsOf cur) →
          ∀ (s : ClusterState), Domain CG s → ZoomInv s →
          MonoKeep s (l.foldl (parentStep CG termsAttr hasAttr fuel cur terminal) s) ∧
          ZoomInv (l.foldl (parentStep CG termsAttr hasAttr fuel cur terminal) s) ∧
          (∀ p ∈ l,
            Constraint (l.foldl (parentStep CG termsAttr hasAttr fuel cur terminal) s) cur p) ∧
          (∀ p ∈ l, ∀ n, Above CG p n → n ≠ ANATOMICAL_ROOT → ∀ q ∈ CG.parentsOf n,
            Constraint (l.foldl (parentStep CG termsAttr hasAttr fuel cur terminal) s) n q) ∧
          (∀ p ∈ l, Above CG p ANATOMICAL_ROOT →
            RootZero (l.foldl (parentStep CG termsAttr hasAttr fuel cur terminal) s)) := by
        intro l
        induction l with
        | nil =>
          intro _ s hds his
          exact ⟨monokeep_refl s, his, by simp, by simp, by simp⟩
        | cons p l' ihl =>
          intro hsub s hds his
          simp only [List.foldl_cons]
          obtain ⟨mk1, inv1, con1, est1, rz1⟩ :=
            pstep p s (hsub p (List.mem_cons_self _ _)) hds his
          obtain ⟨mk2, inv2, con2, est2, rz2⟩ :=
            ihl (fun q hq => hsub q (List.mem_cons_of_mem _ hq)) _
              (domain_of_monokeep mk1 hds) inv1
          refine ⟨monokeep_trans mk1 mk2, inv2, ?_, ?_, ?_⟩
          · intro q hq
            rcases List.mem_cons.mp hq with h' | h'
            · subst h'; exact constraint_of_mono mk2.1 con1
            · exact con2 q h'
          · intro q hq n han hnr qq hqq
            rcases List.mem_cons.mp hq with h' | h'
            · subst h'
              exact constraint_of_mono mk2.1 (est1 n han hnr qq hqq)
            · exact est2 q h' n han hnr qq hqq
          · intro q hq hab
            rcases List.mem_cons.mp hq with h' | h'
            · subst h'
              exact rootzero_of_mono mk2.1 inv2 (rz1 hab)
            · exact rz2 q h' hab
      obtain ⟨mkF, invF, conF, estF, rzF⟩ :=
        fold (CG.parentsOf cur) (fun _ hp => hp) _ hdomD hinvD
      refine ⟨monokeep_trans hmkD mkF, invF, ?_, ?_⟩
      · intro n han hnr
        cases han with
        | refl => exact fun p hp => conF p hp
        | step hp hab => exact estF _ hp n hab hnr
      · intro hab
        cases hab with
        | refl => exact absurd rfl hroot
        | step hp hab' => exact rzF _ hp hab'

/-- Master lemma for the terminal loop of the constructor: it is monotone,
keeps records, preserves the zoom invariant, stamps the terminal sentinel on
every processed node, and establishes the propagation constraints and the
root zero along every walked ancestor path. -/
theorem terminal_fold_master (CG : SubGraph) (termsAttr : String → List String)
    (hasAttr : String → Bool) (rk : String → Nat)
    (hrk : RankOK CG rk)
    (hclosed : ∀ n ∈ CG.nodes, ∀ p ∈ CG.parentsOf n, p ∈ CG.nodes)
    (hrootnp : CG.parentsOf ANATOMICAL_ROOT = [])
    (fuel : Nat) (hfuel : ∀ n ∈ CG.nodes, rk n < fuel) :
    ∀ (l : List String), (∀ t ∈ l, t ∈ CG.nodes) →
    ∀ (s : ClusterState), Domain CG s → ZoomInv s →
      MonoKeep s (l.foldl (terminalStep CG termsAttr hasAttr fuel) s) ∧
      ZoomInv (l.foldl (terminalStep CG termsAttr hasAttr fuel) s) ∧
      (∀ t ∈ l, MaxSentinel (l.foldl (terminalStep CG termsAttr hasAttr fuel) s) t) ∧
      (∀ t ∈ l, ∀ n, Above CG t n → n ≠ ANATOMICAL_ROOT → ∀ p ∈ CG.parentsOf n,
        Constraint (l.foldl (terminalStep CG termsAttr hasAttr fuel) s) n p) ∧
      (∀ t ∈ l, Above CG t ANATOMICAL_ROOT →
        RootZero (l.foldl (terminalStep CG termsAttr hasAttr fuel) s)) := by
  have tstep : ∀ (t : String) (s : ClusterState), t ∈ CG.nodes →
      Domain CG s → ZoomInv s →
      MonoKeep s (terminalStep CG termsAttr hasAttr fuel s t) ∧
      ZoomInv (terminalStep CG termsAttr hasAttr fuel s t) ∧
      MaxSentinel (terminalStep CG termsAttr hasAttr fuel s t) t ∧
      (∀ n, Above CG t n → n ≠ ANATOMICAL_ROOT → ∀ p ∈ CG.parentsOf n,
        Constraint (terminalStep CG termsAttr hasAttr fuel s t) n p) ∧
      (Above CG t ANATOMICAL_ROOT →
        RootZero (terminalStep CG termsAttr hasAttr fuel s t)) := by
    intro t s ht hds his
    rcases hsc : s.clusters t with _ | c
    · exact absurd (hds t ht) (by simp [hsc])
    have hinv_c := his t c hsc
    have heq : terminalStep CG termsAttr hasAttr fuel s t =
        setZoomFromParents CG termsAttr hasAttr fuel
          (setCluster s t { c with maxZoom := MAX_MARKER_ZOOM }) t t := by
      unfold terminalStep
      rw [hsc]
    rw [heq]
    have hmk1 : MonoKeep s (setCluster s t { c with maxZoom := MAX_MARKER_ZOOM }) := by
      constructor
      · intro u c' h'
        by_cases hut : u = t
        · subst hut
          rw [setCluster_self] at h'
          cases Option.some.inj h'
          exact ⟨c, hsc, rfl, rfl, hinv_c.2.2, le_refl _⟩
        · rw [setCluster_other _ _ _ _ hut] at h'
          exact ⟨c', h', rfl, rfl, le_refl _, le_refl _⟩
      · intro u hu
        by_cases hut : u = t
        · subst hut; rw [setCluster_self]; rfl
        · rw [setCluster_other _ _ _ _ hut]; exact hu
    have hinv1 : ZoomInv (setCluster s t { c with maxZoom := MAX_MARKER_ZOOM }) := by
      intro u c' h'
      by_cases hut : u = t
      · subst hut
        rw [setCluster_self] at h'
        cases Option.some.inj h'
        refine ⟨hinv_c.1, ?_, le_refl _⟩
        simp only
        have := hinv_c.2.1
        have := hinv_c.2.2
        omega
      · rw [setCluster_other _ _ _ _ hut] at h'
        exact his u c' h'
    have hms1 : MaxSentinel (setCluster s t { c with maxZoom := MAX_MARKER_ZOOM }) t := by
      intro c' h'
      rw [setCluster_self] at h'
      cases Option.some.inj h'
      rfl
    obtain ⟨mkR, invR, estR, rzR⟩ :=
      szfp_master CG termsAttr hasAttr rk hrk hclosed hrootnp fuel _ t t ht
        (hfuel t ht) (domain_of_monokeep hmk1 hds) hinv1
    exact ⟨monokeep_trans hmk1 mkR, invR,
      maxsentinel_of_mono mkR.1 invR hms1, estR, rzR⟩
  intro l
  induction l with
  | nil =>
    intro _ s hds his
    exact ⟨monokeep_refl s, his, by simp, by simp, by simp⟩
  | cons t l' ihl =>
    intro hsub s hds his
    simp only [List.foldl_cons]
    obtain ⟨mk1, inv1, ms1, est1, rz1⟩ :=
      tstep t s (hsub t (List.mem_cons_self _ _)) hds his
    obtain ⟨mk2, inv2, ms2, est2, rz2⟩ :=
      ihl (fun q hq => hsub q (List.mem_cons_of_mem _ hq)) _
        (domain_of_monokeep mk1 hds) inv1
    refine ⟨monokeep_trans mk1 mk2, inv2, ?_, ?_, ?_⟩
    · intro q hq
      rcases List.mem_cons.mp hq with h' | h'
      · subst h'; exact maxsentinel_of_mono mk2.1 inv2 ms1
      · exact ms2 q h'
    · intro q hq n han hnr qq hqq
      rcases List.mem_cons.mp hq with h' | h'
      · subst h'
        exact constraint_of_mono mk2.1 (est1 n han hnr qq hqq)
      · exact est2 q h' n han hnr qq hqq
    · intro q hq hab
      rcases List.mem_cons.mp hq with h' | h'
      · subst h'
        exact rootzero_of_mono mk2.1 inv2 (rz1 hab)
      · exact rz2 q h' hab

/-- The pruning pass is monotone and preserves the zoom invariant. -/
theorem smzfr_mono (CG : SubGraph) (hasAI : String → Bool) :
    ∀ (fuel : Nat) (st : ClusterState) (term : String), ZoomInv st →
      Mono st (setMinZoomFromRoot CG hasAI fuel st term) ∧
      ZoomInv (setMinZoomFromRoot CG hasAI fuel st term) := by
  intro fuel
  induction fuel with
  | zero => intro st term hinv; exact ⟨mono_refl st, hinv⟩
  | succ fuel ih =>
    intro st term hinv
    unfold setMinZoomFromRoot
    by_cases hai : hasAI term
    · rw [if_pos hai]; exact ⟨mono_refl st, hinv⟩
    · rw [if_neg hai]
      have hmkdel : Mono st (deleteCluster st term) := by
        intro u c' h'
        by_cases hut : u = term
        · subst hut; rw [deleteCluster_self] at h'; cases h'
        · rw [deleteCluster_other _ _ _ hut] at h'
          exact ⟨c', h', rfl, rfl, le_refl _, le_refl _⟩
      have hinvdel : ZoomInv (deleteCluster st term) := by
        intro u c' h'
        by_cases hut : u = term
        · subst hut; rw [deleteCluster_self] at h'; cases h'
        · rw [deleteCluster_other _ _ _ hut] at h'
          exact hinv u c' h'
      have cstep : ∀ (child : String) (s : ClusterState), ZoomInv s →
          Mono s ((fun st'' child =>
            setMinZoomFromRoot CG hasAI fuel
              (match st''.clusters child with
               | some c => setCluster st'' child { c with minZoom := 0 }
               | none => st'') child) s child) ∧
          ZoomInv ((fun st'' child =>
            setMinZoomFromRoot CG hasAI fuel
              (match st''.clusters child with
               | some c => setCluster st'' child { c with minZoom := 0 }
               | none => st'') child) s child) := by
        intro child s his
        simp only
        rcases hsc : s.clusters child with _ | c
        · exact ih _ child his
        · show Mono s (setMinZoomFromRoot CG hasAI fuel
              (setCluster s child { c with minZoom := 0 }) child) ∧
            ZoomInv (setMinZoomFromRoot CG hasAI fuel
              (setCluster s child { c with minZoom := 0 }) child)
          have hinv_c := his child c hsc
          have hmk1 : Mono s (setCluster s child { c with minZoom := 0 }) := by
            intro u c' h'
            by_cases hut : u = child
            · subst hut
              rw [setCluster_self] at h'
              cases Option.some.inj h'
              exact ⟨c, hsc, rfl, rfl, le_refl _, hinv_c.1⟩
            · rw [setCluster_other _ _ _ _ hut] at h'
              exact ⟨c', h', rfl, rfl, le_refl _, le_refl _⟩
          have hinv1 : ZoomInv (setCluster s child { c with minZoom := 0 }) := by
            intro u c' h'
            by_cases hut : u = child
            · subst hut
              rw [setCluster_self] at h'
              cases Option.some.inj h'
              refine ⟨le_refl _, ?_, hinv_c.2.2⟩
              simp only
              have := hinv_c.1
              have := hinv_c.2.1
              omega
            · rw [setCluster_other _ _ _ _ hut] at h'
              exact his u c' h'
          obtain ⟨m2, i2⟩ := ih _ child hinv1
          exact ⟨mono_trans hmk1 m2, i2⟩
      have fold : ∀ (l : List String) (s : ClusterState), ZoomInv s →
          Mono s (l.foldl (fun st'' child =>
            setMinZoomFromRoot CG hasAI fuel
              (match st''.clusters child with
               | some c => setCluster st'' child { c with minZoom := 0 }
               | none => st'') child) s) ∧
          ZoomInv (l.foldl (fun st'' child =>
            setMinZoomFromRoot CG hasAI fuel
              (match st''.clusters child with
               | some c => setCluster st'' child { c with minZoom := 0 }
               | none => st'') child) s) := by
        intro l
        induction l with
        | nil => intro s his; exact ⟨mono_refl s, his⟩
        | cons child l' ihl =>
          intro s his
          simp only [List.foldl_cons]
          obtain ⟨m1, i1⟩ := cstep child s his
          obtain ⟨m2, i2⟩ := ihl _ i1
          exact ⟨mono_trans m1 m2, i2⟩
      obtain ⟨mF, iF⟩ := fold (CG.childrenOf term) (deleteCluster st term) hinvdel
      exact ⟨mono_trans hmkdel mF, iF⟩

/-- The pruning pass never deletes the record of a concretely present term. -/
theorem smzfr_present (CG : SubGraph) (hasAI : String → Bool) :
    ∀ (fuel : Nat) (st : ClusterState) (term t : String), hasAI t = true →
      (st.clusters t).isSome = true →
      ((setMinZoomFromRoot CG hasAI fuel st term).clusters t).isSome = true := by
  intro fuel
  induction fuel with
  | zero => intro st term t _ h; exact h
  | succ fuel ih =>
    intro st term t hait h
    unfold setMinZoomFromRoot
    by_cases hai : hasAI term
    · rw [if_pos hai]; exact h
    · rw [if_neg hai]
      have htterm : t ≠ term := by
        intro he; rw [he] at hait; exact hai hait
      have hdel : ((deleteCluster st term).clusters t).isSome = true := by
        rw [deleteCluster_other _ _ _ htterm]; exact h
      have fold : ∀ (l : List String) (s : ClusterState),
          (s.clusters t).isSome = true →
          ((l.foldl (fun st'' child =>
            setMinZoomFromRoot CG hasAI fuel
              (match st''.clusters child with
               | some c => setCluster st'' child { c with minZoom := 0 }
               | none => st'') child) s).clusters t).isSome = true := by
        intro l
        induction l with
        | nil => intro s hs; exact hs
        | cons child l' ihl =>
          intro s hs
          simp only [List.foldl_cons]
          apply ihl
          apply ih _ child t hait
          rcases hsc : s.clusters child with _ | c
          · exact hs
          · show ((setCluster s child { c with minZoom := 0 }).clusters t).isSome = true
            by_cases hut : t = child
            · subst hut; rw [setCluster_self]; rfl
            · rw [setCluster_other _ _ _ _ hut]; exact hs
      exact fold (CG.childrenOf term) (deleteCluster st term) hdel

/-- The depth-derived band always lies within the invariant bounds. -/
theorem depthToZoomRange_bounds (maxDepth depth : Int) :
    0 ≤ (depthToZoomRange maxDepth depth).1 ∧
    (depthToZoomRange maxDepth depth).1 ≤ (depthToZoomRange maxDepth depth).2 ∧
    (depthToZoomRange maxDepth depth).2 ≤ MAX_MARKER_ZOOM := by
  unfold depthToZoomRange
  dsimp only
  split_ifs with h1 h2
  · refine ⟨le_refl _, by norm_num, by norm_num [MAX_MARKER_ZOOM]⟩
  · refine ⟨?_, le_refl _, le_refl _⟩
    simp only [MAX_MARKER_ZOOM] at h2 ⊢
    omega
  · refine ⟨by omega, by omega, ?_⟩
    simp only [MAX_MARKER_ZOOM] at h2 ⊢
    omega

/-- Propagation preserves the zoom invariant and is monotone, for any fuel
(no acyclicity needed: fuel exhaustion leaves the state unchanged). -/
theorem szfp_inv_mono (CG : SubGraph) (termsAttr : String → List String)
    (hasAttr : String → Bool) :
    ∀ (fuel : Nat) (st : ClusterState) (cur terminal : String), ZoomInv st →
      MonoKeep st (setZoomFromParents CG termsAttr hasAttr fuel st cur terminal) ∧
      ZoomInv (setZoomFromParents CG termsAttr hasAttr fuel st cur terminal) := by
  intro fuel
  induction fuel with
  | zero => intro st cur terminal hinv; exact ⟨monokeep_refl st, hinv⟩
  | succ fuel ih =>
    intro st cur terminal hinv
    rw [szfp_succ_eq]
    have hd1 : (descStep termsAttr hasAttr st cur terminal).clusters = st.clusters :=
      descStep_clusters termsAttr hasAttr st cur terminal
    have hinvD : ZoomInv (descStep termsAttr hasAttr st cur terminal) :=
      zoominv_of_clusters_eq hd1 hinv
    have hmkD : MonoKeep st (descStep termsAttr hasAttr st cur terminal) :=
      monokeep_of_clusters_eq hd1
    by_cases hroot : cur = ANATOMICAL_ROOT
    · rw [if_pos hroot]
      rcases hc : (descStep termsAttr hasAttr st cur terminal).clusters cur with _ | c
      · exact ⟨hmkD, hinvD⟩
      · have hinv_c := hinvD cur c hc
        refine ⟨monokeep_trans hmkD ⟨?_, ?_⟩, ?_⟩
        · intro t c' h'
          by_cases htc : t = cur
          · subst htc
            rw [setCluster_self] at h'
            cases Option.some.inj h'
            exact ⟨c, hc, rfl, rfl, le_refl _, hinv_c.1⟩
          · rw [setCluster_other _ _ _ _ htc] at h'
            exact ⟨c', h', rfl, rfl, le_refl _, le_refl _⟩
        · intro t ht
          by_cases htc : t = cur
          · subst htc; rw [setCluster_self]; rfl
          · rw [setCluster_other _ _ _ _ htc]; exact ht
        · intro t c' h'
          by_cases htc : t = cur
          · subst htc
            rw [setCluster_self] at h'
            cases Option.some.inj h'
            refine ⟨le_refl _, ?_, hinv_c.2.2⟩
            simp only
            omega
          · rw [setCluster_other _ _ _ _ htc] at h'
            exact hinvD t c' h'
    · rw [if_neg hroot]
      have pstep : ∀ (p : String) (s : ClusterState), ZoomInv s →
          MonoKeep s (parentStep CG termsAttr hasAttr fuel cur terminal s p) ∧
          ZoomInv (parentStep CG termsAttr hasAttr fuel cur terminal s p) := by
        intro p s hs
        rcases hsc : s.clusters cur with _ | cc
        · have heq : parentStep CG termsAttr hasAttr fuel cur terminal s p = s := by
            unfold parentStep; rw [hsc]
          rw [heq]
          exact ⟨monokeep_refl s, hs⟩
        rcases hsp : s.clusters p with _ | pc
        · have heq : parentStep CG termsAttr hasAttr fuel cur terminal s p = s := by
            unfold parentStep; rw [hsc, hsp]
          rw [heq]
          exact ⟨monokeep_refl s, hs⟩
        have hinv_cc := hs cur cc hsc
        have hinv_pc := hs p pc hsp
        have heq : parentStep CG termsAttr hasAttr fuel cur terminal s p =
            setZoomFromParents CG termsAttr hasAttr fuel
              (if pc.maxZoom < cc.minZoom then
                setCluster s p { pc with maxZoom := cc.minZoom }
              else s) p terminal := by
          unfold parentStep
          rw [hsc, hsp]
        rw [heq]
        have hmk1 : MonoKeep s
            (if pc.maxZoom < cc.minZoom then
              setCluster s p { pc with maxZoom := cc.minZoom } else s) := by
          by_cases hlt : pc.maxZoom < cc.minZoom
          · rw [if_pos hlt]
            constructor
            · intro t c' h'
              by_cases htp : t = p
              · subst htp
                rw [setCluster_self] at h'
                cases Option.some.inj h'
                exact ⟨pc, hsp, rfl, rfl, le_of_lt hlt, le_refl _⟩
              · rw [setCluster_other _ _ _ _ htp] at h'
                exact ⟨c', h', rfl, rfl, le_refl _, le_refl _⟩
            · intro t ht
              by_cases htp : t = p
              · subst htp; rw [setCluster_self]; rfl
              · rw [setCluster_other _ _ _ _ htp]; exact ht
          · rw [if_neg hlt]; exact monokeep_refl s
        have hinv1 : ZoomInv
            (if pc.maxZoom < cc.minZoom then
              setCluster s p { pc with maxZoom := cc.minZoom } else s) := by
          by_cases hlt : pc.maxZoom < cc.minZoom
          · rw [if_pos hlt]
            intro t c' h'
            by_cases htp : t = p
            · subst htp
              rw [setCluster_self] at h'
              cases Option.some.inj h'
              refine ⟨hinv_pc.1, ?_, ?_⟩ <;> simp only <;> omega
            · rw [setCluster_other _ _ _ _ htp] at h'
              exact hs t c' h'
          · rw [if_neg hlt]; exact hs
        obtain ⟨mkR, invR⟩ := ih _ p terminal hinv1
        exact ⟨monokeep_trans hmk1 mkR, invR⟩
      have fold : ∀ (l : List String) (s : ClusterState), ZoomInv s →
          MonoKeep s (l.foldl (parentStep CG termsAttr hasAttr fuel cur terminal) s) ∧
          ZoomInv (l.foldl (parentStep CG termsAttr hasAttr fuel cur terminal) s) := by
        intro l
        induction l with
        | nil => intro s hs; exact ⟨monokeep_refl s, hs⟩
        | cons p l' ihl =>
          intro s hs
          simp only [List.foldl_cons]
          obtain ⟨mk1, inv1⟩ := pstep p s hs
          obtain ⟨mk2, inv2⟩ := ihl _ inv1
          exact ⟨monokeep_trans mk1 mk2, inv2⟩
      obtain ⟨mkF, invF⟩ := fold (CG.parentsOf cur) _ hinvD
      exact ⟨monokeep_trans hmkD mkF, invF⟩

/-- The terminal loop preserves the zoom invariant, for any fuel. -/
theorem terminal_fold_inv (CG : SubGraph) (termsAttr : String → List String)
    (hasAttr : String → Bool) (fuel : Nat) :
    ∀ (l : List String) (s : ClusterState), ZoomInv s →
      MonoKeep s (l.foldl (terminalStep CG termsAttr hasAttr fuel) s) ∧
      ZoomInv (l.foldl (terminalStep CG termsAttr hasAttr fuel) s) := by
  have tstep : ∀ (t : String) (s : ClusterState), ZoomInv s →
      MonoKeep s (terminalStep CG termsAttr hasAttr fuel s t) ∧
      ZoomInv (terminalStep CG termsAttr hasAttr fuel s t) := by
    intro t s hs
    rcases hsc : s.clusters t with _ | c
    · have heq : terminalStep CG termsAttr hasAttr fuel s t = s := by
        unfold terminalStep; rw [hsc]
      rw [heq]
      exact ⟨monokeep_refl s, hs⟩
    · have hinv_c := hs t c hsc
      have heq : terminalStep CG termsAttr hasAttr fuel s t =
          setZoomFromParents CG termsAttr hasAttr fuel
            (setCluster s t { c with maxZoom := MAX_MARKER_ZOOM }) t t := by
        unfold terminalStep; rw [hsc]
      rw [heq]
      have hmk1 : MonoKeep s (setCluster s t { c with maxZoom := MAX_MARKER_ZOOM }) := by
        constructor
        · intro u c' h'
          by_cases hut : u = t
          · subst hut
            rw [setCluster_self] at h'
            cases Option.some.inj h'
            exact ⟨c, hsc, rfl, rfl, hinv_c.2.2, le_refl _⟩
          · rw [setCluster_other _ _ _ _ hut] at h'
            exact ⟨c', h', rfl, rfl, le_refl _, le_refl _⟩
        · intro u hu
          by_cases hut : u = t
          · subst hut; rw [setCluster_self]; rfl
          · rw [setCluster_other _ _ _ _ hut]; exact hu
      have hinv1 : ZoomInv (setCluster s t { c with maxZoom := MAX_MARKER_ZOOM }) := by
        intro u c' h'
        by_cases hut : u = t
        · subst hut
          rw [setCluster_self] at h'
          cases Option.some.inj h'
          refine ⟨hinv_c.1, ?_, le_refl _⟩
          simp only
          have := hinv_c.2.1
          have := hinv_c.2.2
          omega
        · rw [setCluster_other _ _ _ _ hut] at h'
          exact hs u c' h'
      obtain ⟨mkR, invR⟩ := szfp_inv_mono CG termsAttr hasAttr fuel _ t t hinv1
      exact ⟨monokeep_trans hmk1 mkR, invR⟩
  intro l
  induction l with
  | nil => intro s hs; exact ⟨monokeep_refl s, hs⟩
  | cons t l' ihl =>
    intro s hs
    simp only [List.foldl_cons]
    obtain ⟨mk1, inv1⟩ := tstep t s hs
    obtain ⟨mk2, inv2⟩ := ihl _ inv1
    exact ⟨monokeep_trans mk1 mk2, inv2⟩

theorem dcsInit_domain (M : MapTermGraph) (CG : SubGraph) (datasetId : String) :
    Domain CG (dcsInit M CG datasetId) := by
  intro t ht
  unfold dcsInit
  simp [ht]

theorem dcsInit_inv (M : MapTermGraph) (CG : SubGraph) (datasetId : String) :
    ZoomInv (dcsInit M CG datasetId) := by
  intro t c hc
  unfold dcsInit at hc
  dsimp only at hc
  split_ifs at hc with h
  cases Option.some.inj hc
  exact depthToZoomRange_bounds M.maxDepth (M.depth t)

/-- C8: every `DatasetCluster` record exposed by a constructed
`DatasetClusterSet` satisfies `0 ≤ minZoom ≤ maxZoom ≤ MAX_MARKER_ZOOM`; the
supporting lemmas (`dcsInit_inv`, `terminal_fold_inv`, `szfp_inv_mono`,
`smzfr_mono`) show the invariant is preserved by every construction step:
depth-derived bands, terminal forcing, upward propagation and pruning.  The
positivity of `maxDepth` keeps the JS band formula inside exact integer
arithmetic. -/
theorem dataset_cluster_zoom_invariant (hasAI : String → Bool)
    (M : MapTermGraph) (CG : SubGraph) (fuel : Nat) (datasetId : String)
    (terms : List String) (_hmd : 0 < M.maxDepth) :
    (∀ t c,
      (buildDatasetClusterSet hasAI M CG fuel datasetId terms).clustersMap t = some c →
      0 ≤ c.minZoom ∧ c.minZoom ≤ c.maxZoom ∧ c.maxZoom ≤ MAX_MARKER_ZOOM) ∧
    (∀ c ∈ (buildDatasetClusterSet hasAI M CG fuel datasetId terms).clustersList,
      0 ≤ c.minZoom ∧ c.minZoom ≤ c.maxZoom ∧ c.maxZoom ≤ MAX_MARKER_ZOOM) := by
  obtain ⟨mk1, inv1⟩ :=
    terminal_fold_inv CG (dcsTermsAttr hasAI M fuel terms)
      (fun n => CG.nodes.contains n) fuel (terminalNodes CG)
      (dcsInit M CG datasetId) (dcsInit_inv M CG datasetId)
  obtain ⟨m2, inv2⟩ := smzfr_mono CG hasAI fuel
    (dcsAfterTerminals hasAI M CG fuel datasetId terms) ANATOMICAL_ROOT inv1
  constructor
  · intro t c hc
    exact inv2 t c hc
  · intro c hcmem
    obtain ⟨t, _, hc⟩ := List.mem_filterMap.mp hcmem
    exact inv2 t c hc

/-- C6: after construction, every subgraph node other than the root with
subgraph degree 1 still has a cluster record and that record carries
`maxZoom = MAX_MARKER_ZOOM`. -/
theorem terminal_cluster_max_sentinel (hasAI : String → Bool)
    (M : MapTermGraph) (CG : SubGraph) (fuel : Nat) (datasetId : String)
    (terms : List String) (rk : String → Nat)
    (hspec : ConnectedSubgraphSpec M
      ((validatedMarkerTerms hasAI M fuel terms).map (fun pr => pr.1)) CG)
    (hrk : RankOK CG rk) (hfuel : ∀ n ∈ CG.nodes, rk n < fuel)
    (_hmd : 0 < M.maxDepth) :
    ∀ t ∈ CG.nodes, t ≠ ANATOMICAL_ROOT → CG.degree t = 1 →
      ∃ c,
        (buildDatasetClusterSet hasAI M CG fuel datasetId terms).clustersMap t = some c ∧
        c.maxZoom = MAX_MARKER_ZOOM := by
  intro t ht hnr hdeg
  have hterm : t ∈ terminalNodes CG := by
    unfold terminalNodes
    apply List.mem_filter.mpr
    refine ⟨ht, ?_⟩
    simp [hnr, hdeg]
  have hkey : t ∈ (validatedMarkerTerms hasAI M fuel terms).map (fun pr => pr.1) := by
    by_contra hnk
    obtain ⟨c0, hc0n, hc0p⟩ := hspec.minimal t ht hnr hnk
    have hchild : c0 ∈ CG.childrenOf t := by
      unfold SubGraph.childrenOf
      apply List.mem_filter.mpr
      exact ⟨hc0n, by simp [hc0p]⟩
    have hplen : 0 < (CG.parentsOf t).length :=
      List.length_pos.mpr (hspec.nonroot_parent t ht hnr)
    have hclen : 0 < (CG.childrenOf t).length := List.length_pos_of_mem hchild
    unfold SubGraph.degree at hdeg
    omega
  have hair : hasAI t = true := by
    obtain ⟨pr, hpr, hfpr⟩ := List.mem_map.mp hkey
    have hpres := validated_foldl_present hasAI M fuel terms [] (by simp) pr hpr
    rw [hfpr] at hpres
    exact hpres
  obtain ⟨mkT, invT, msT, _, _⟩ :=
    terminal_fold_master CG (dcsTermsAttr hasAI M fuel terms)
      (fun n => CG.nodes.contains n) rk hrk hspec.closed hspec.root_no_parents
      fuel hfuel (terminalNodes CG)
      (fun q hq => (List.mem_filter.mp hq).1)
      (dcsInit M CG datasetId) (dcsInit_domain M CG datasetId)
      (dcsInit_inv M CG datasetId)
  have hdomT : Domain CG (dcsAfterTerminals hasAI M CG fuel datasetId terms) :=
    domain_of_monokeep mkT (dcsInit_domain M CG datasetId)
  have hsomeF :
      (((dcsFinal hasAI M CG fuel datasetId terms).clusters) t).isSome = true :=
    smzfr_present CG hasAI fuel
      (dcsAfterTerminals hasAI M CG fuel datasetId terms) ANATOMICAL_ROOT t hair
      (hdomT t ht)
  obtain ⟨m2, inv2⟩ := smzfr_mono CG hasAI fuel
    (dcsAfterTerminals hasAI M CG fuel datasetId terms) ANATOMICAL_ROOT invT
  have msF : MaxSentinel (dcsFinal hasAI M CG fuel datasetId terms) t :=
    maxsentinel_of_mono m2 inv2 (msT t hterm)
  rcases hc : (dcsFinal hasAI M CG fuel datasetId terms).clusters t with _ | c
  · rw [hc] at hsomeF
    exact absurd hsomeF (by simp)
  · exact ⟨c, hc, msF c hc⟩

/-- C5 (amended): whenever the connected subgraph has at least one terminal
node (non-root, degree 1), the root cluster record — if it still exists
after the pruning pass — has `minZoom = 0`.  (The unamended claim fails when
no terminal exists: no propagation walk runs and the root keeps its
depth-derived band.) -/
theorem root_cluster_min_zero (hasAI : String → Bool) (M : MapTermGraph)
    (CG : SubGraph) (fuel : Nat) (datasetId : String) (terms : List String)
    (rk : String → Nat)
    (hspec : ConnectedSubgraphSpec M
      ((validatedMarkerTerms hasAI M fuel terms).map (fun pr => pr.1)) CG)
    (hrk : RankOK CG rk) (hfuel : ∀ n ∈ CG.nodes, rk n < fuel)
    (_hmd : 0 < M.maxDepth) (hterm : terminalNodes CG ≠ []) :
    ∀ c,
      (buildDatasetClusterSet hasAI M CG fuel datasetId terms).clustersMap
        ANATOMICAL_ROOT = some c →
      c.minZoom = 0 := by
  obtain ⟨t, ht⟩ := List.exists_mem_of_ne_nil _ hterm
  have htn : t ∈ CG.nodes := (List.mem_filter.mp ht).1
  have habove : Above CG t ANATOMICAL_ROOT :=
    above_root hrk hspec.closed hspec.nonroot_parent t htn
  obtain ⟨mkT, invT, _, _, rzT⟩ :=
    terminal_fold_master CG (dcsTermsAttr hasAI M fuel terms)
      (fun n => CG.nodes.contains n) rk hrk hspec.closed hspec.root_no_parents
      fuel hfuel (terminalNodes CG)
      (fun q hq => (List.mem_filter.mp hq).1)
      (dcsInit M CG datasetId) (dcsInit_domain M CG datasetId)
      (dcsInit_inv M CG datasetId)
  obtain ⟨m2, inv2⟩ := smzfr_mono CG hasAI fuel
    (dcsAfterTerminals hasAI M CG fuel datasetId terms) ANATOMICAL_ROOT invT
  exact rootzero_of_mono m2 inv2 (rzT t ht habove)

/-- C2 (amended): after construction, for every terminal node and every node
`n` on one of its ancestor paths other than the root, and every subgraph
parent `p` of `n`, whenever both records still exist,
`cluster(p).maxZoom ≥ cluster(n).minZoom`.  (The unamended claim — over all
non-root subgraph nodes — fails for nodes not walked from any terminal.) -/
theorem cluster_parent_constraint_on_walked_paths (hasAI : String → Bool)
    (M : MapTermGraph) (CG : SubGraph) (fuel : Nat) (datasetId : String)
    (terms : List String) (rk : String → Nat)
    (hspec : ConnectedSubgraphSpec M
      ((validatedMarkerTerms hasAI M fuel terms).map (fun pr => pr.1)) CG)
    (hrk : RankOK CG rk) (hfuel : ∀ n ∈ CG.nodes, rk n < fuel)
    (_hmd : 0 < M.maxDepth) :
    ∀ t ∈ terminalNodes CG, ∀ n, Above CG t n → n ≠ ANATOMICAL_ROOT →
      ∀ p ∈ CG.parentsOf n, ∀ cn cp,
        (buildDatasetClusterSet hasAI M CG fuel datasetId terms).clustersMap n = some cn →
        (buildDatasetClusterSet hasAI M CG fuel datasetId terms).clustersMap p = some cp →
        cn.minZoom ≤ cp.maxZoom := by
  intro t ht n han hnr p hp cn cp hcn hcp
  obtain ⟨mkT, invT, _, estT, _⟩ :=
    terminal_fold_master CG (dcsTermsAttr hasAI M fuel terms)
      (fun n => CG.nodes.contains n) rk hrk hspec.closed hspec.root_no_parents
      fuel hfuel (terminalNodes CG)
      (fun q hq => (List.mem_filter.mp hq).1)
      (dcsInit M CG datasetId) (dcsInit_domain M CG datasetId)
      (dcsInit_inv M CG datasetId)
  obtain ⟨m2, inv2⟩ := smzfr_mono CG hasAI fuel
    (dcsAfterTerminals hasAI M CG fuel datasetId terms) ANATOMICAL_ROOT invT
  exact constraint_of_mono m2 (estT t ht n han hnr p hp) cn cp hcn hcp

/-! ## Concrete instances: a chain (for witnesses) and a diamond (for
counterexamples) -/

/-- The connected subgraph for the dataset with raw term T over `exGraph`:
validation substitutes P2, so the subgraph spans the root and P2. -/
def exCG : SubGraph where
  nodes := [ANATOMICAL_ROOT, "P2"]
  parentsOf := fun t => if t = "P2" then [ANATOMICAL_ROOT] else []

/-- A rank for `exCG`, decreasing along parent edges. -/
def exRank : String → Nat := fun t => if t = ANATOMICAL_ROOT then 0 else 1

/-- Feature presence for the diamond example: every node of the diamond is
concretely present. -/
def dmHasAI : String → Bool :=
  fun t => t == "M" || t == "P1" || t == "P2" || t == ANATOMICAL_ROOT

/-- The diamond term graph: M has the two parents P1 and P2, both children
of the root; depths are breadth-first distances. -/
def dmGraph : MapTermGraph where
  parents := fun t =>
    if t = "M" then ["P1", "P2"]
    else if t = "P1" ∨ t = "P2" then [ANATOMICAL_ROOT]
    else []
  depth := fun t =>
    if t = ANATOMICAL_ROOT then 0
    else if t = "P1" ∨ t = "P2" then 1
    else if t = "M" then 2
    else -1
  maxDepth := 2

/-- The connected subgraph of the diamond dataset with terms `[M]`. -/
def dmCG : SubGraph where
  nodes := [ANATOMICAL_ROOT, "P1", "P2", "M"]
  parentsOf := dmGraph.parents

/-- C2 counterexample: in the diamond subgraph every node has degree 2, so
no node is terminal, no propagation walk runs, and the records keep their
depth-derived bands: P1 is a parent of M in the subgraph, yet
`cluster(P1).maxZoom = 8 < 12 = cluster(M).minZoom`, refuting the claim
for all non-root nodes and parents. -/
theorem diamond_violates_parent_constraint :
    ConnectedSubgraphSpec dmGraph
      ((validatedMarkerTerms dmHasAI dmGraph 5 ["M"]).map (fun pr => pr.1)) dmCG ∧
    "P1" ∈ dmCG.parentsOf "M" ∧ "M" ≠ ANATOMICAL_ROOT ∧ "M" ∈ dmCG.nodes ∧
    ∃ cn cp,
      (buildDatasetClusterSet dmHasAI dmGraph dmCG 5 "ds" ["M"]).clustersMap "M" = some cn ∧
      (buildDatasetClusterSet dmHasAI dmGraph dmCG 5 "ds" ["M"]).clustersMap "P1" = some cp ∧
      cp.maxZoom < cn.minZoom := by
  refine ⟨⟨by decide, by decide, by decide, by decide, by decide, by decide, by decide⟩,
    by decide, by decide, by decide, ?_⟩
  exact ⟨⟨"M", "ds", 12, 12⟩, ⟨"P1", "ds", 7, 8⟩, by decide, by decide, by decide⟩

/-- C5 counterexample: in the diamond subgraph the root is present but no
terminal exists, so no walk forces the root minimum: its record keeps the
depth-derived `minZoom = 2 ≠ 0`. -/
theorem diamond_root_min_not_zero :
    ConnectedSubgraphSpec dmGraph
      ((validatedMarkerTerms dmHasAI dmGraph 5 ["M"]).map (fun pr => pr.1)) dmCG ∧
    ANATOMICAL_ROOT ∈ dmCG.nodes ∧
    ∃ c,
      (buildDatasetClusterSet dmHasAI dmGraph dmCG 5 "ds" ["M"]).clustersMap
        ANATOMICAL_ROOT = some c ∧
      c.minZoom ≠ 0 := by
  refine ⟨⟨by decide, by decide, by decide, by decide, by decide, by decide, by decide⟩,
    by decide, ?_⟩
  exact ⟨⟨ANATOMICAL_ROOT, "ds", 2, 3⟩, by decide, by decide⟩

/-- Witness for C8 on the chain instance. -/
theorem dataset_cluster_zoom_invariant_witness :
    0 < exGraph.maxDepth ∧
    ((∀ t c,
      (buildDatasetClusterSet exHasAI exGraph exCG 5 "ds1" ["T"]).clustersMap t = some c →
      0 ≤ c.minZoom ∧ c.minZoom ≤ c.maxZoom ∧ c.maxZoom ≤ MAX_MARKER_ZOOM) ∧
    (∀ c ∈ (buildDatasetClusterSet exHasAI exGraph exCG 5 "ds1" ["T"]).clustersList,
      0 ≤ c.minZoom ∧ c.minZoom ≤ c.maxZoom ∧ c.maxZoom ≤ MAX_MARKER_ZOOM)) :=
  ⟨by decide, dataset_cluster_zoom_invariant exHasAI exGraph exCG 5 "ds1" ["T"] (by decide)⟩

/-- Witness for C6 on the chain instance: P2 is a non-root degree-1 node. -/
theorem terminal_cluster_max_sentinel_witness :
    ∃ c,
      (buildDatasetClusterSet exHasAI exGraph exCG 5 "ds1" ["T"]).clustersMap "P2" = some c ∧
      c.maxZoom = MAX_MARKER_ZOOM :=
  terminal_cluster_max_sentinel exHasAI exGraph exCG 5 "ds1" ["T"] exRank
    ⟨by decide, by decide, by decide, by decide, by decide, by decide, by decide⟩
    (by decide) (by decide) (by decide) "P2" (by decide) (by decide) (by decide)

/-- Witness for C5 (amended) on the chain instance. -/
theorem root_cluster_min_zero_witness :
    terminalNodes exCG ≠ [] ∧
    ∀ c,
      (buildDatasetClusterSet exHasAI exGraph exCG 5 "ds1" ["T"]).clustersMap
        ANATOMICAL_ROOT = some c →
      c.minZoom = 0 :=
  ⟨by decide,
    root_cluster_min_zero exHasAI exGraph exCG 5 "ds1" ["T"] exRank
      ⟨by decide, by decide, by decide, by decide, by decide, by decide, by decide⟩
      (by decide) (by decide) (by decide) (by decide)⟩

/-- Witness for C2 (amended) on the chain instance, at the terminal P2 and
its parent the root, with both records evaluated. -/
theorem cluster_parent_constraint_on_walked_paths_witness :
    (buildDatasetClusterSet exHasAI exGraph exCG 5 "ds1" ["T"]).clustersMap "P2" =
      some (DatasetCluster.mk "P2" "ds1" 7 12) ∧
    (buildDatasetClusterSet exHasAI exGraph exCG 5 "ds1" ["T"]).clustersMap
      ANATOMICAL_ROOT = some (DatasetCluster.mk ANATOMICAL_ROOT "ds1" 0 7) ∧
    (DatasetCluster.mk "P2" "ds1" 7 12).minZoom ≤
      (DatasetCluster.mk ANATOMICAL_ROOT "ds1" 0 7).maxZoom :=
  ⟨by decide, by decide,
    cluster_parent_constraint_on_walked_paths exHasAI exGraph exCG 5 "ds1" ["T"] exRank
      ⟨by decide, by decide, by decide, by decide, by decide, by decide, by decide⟩
      (by decide) (by decide) (by decide) "P2" (by decide) "P2" (Above.refl "P2")
      (by decide) ANATOMICAL_ROOT (by decide)
      (DatasetCluster.mk "P2" "ds1" 7 12)
      (DatasetCluster.mk ANATOMICAL_ROOT "ds1" 0 7) (by decide) (by decide)⟩

/-! ## The cross-dataset aggregator (`ClusteredAnatomicalMarkerLayer`) -/

/-- `MarkerKind` (flatmap-types.ts line 391). -/
inductive MarkerKind
  | dataset
  | multiscale
deriving DecidableEq

/-- `DatasetTerms` (flatmap-types.ts lines 442-447). -/
structure DatasetTerms where
  id : String
  kind : Option MarkerKind
  terms : List String

/-- The aggregate state of `ClusteredAnatomicalMarkerLayer`: its per-term and
per-dataset maps, each as a function from keys.  The per-zoom arrays are
indexed by integer zoom level; sets are insertion-ordered lists. -/
structure AggState where
  datasetFeatureIds : String → Option (List Nat)
  datasetsByZoomTerm : String → Option (List (List String))
  kindByDataset : String → Option MarkerKind
  kindByTerm : String → Option MarkerKind
  markerTerms : String → Option (List String)
  markerTermsByZoomTerm : String → Option (List (List String))
  multiScaleByZoomTerm : String → Option (List Bool)

/-- JS `Set.add`: append the element when absent. -/
def sadd {α : Type} [DecidableEq α] (l : List α) (x : α) : List α :=
  if x ∈ l then l else l ++ [x]

/-- Update the entry at an index, leaving the list unchanged when the index
is out of range (the JS code never indexes its 13-slot arrays out of range
on this path). -/
def modifyAt {α : Type} (l : List α) (i : Nat) (f : α → α) : List α :=
  match l, i with
  | [], _ => []
  | a :: rest, 0 => f a :: rest
  | a :: rest, i+1 => a :: modifyAt rest i f

/-- The JS compound assignment `a[i] ||= b` on an array of booleans: within
range it ORs into the slot; at `i = a.length` the read yields `undefined`
(falsy), so the assignment extends the array with `b`.  Larger indices never
occur here. -/
def jsOrSet (a : List Bool) (i : Nat) (b : Bool) : List Bool :=
  if i < a.length then modifyAt a i (fun x => x || b) else a ++ [b]

/-- The integer zooms `lo, lo+1, ..., hi-1` walked by
`for (let zoom = lo; zoom < hi; zoom += 1)`. -/
def intRange (lo hi : Int) : List Int :=
  (List.range (hi - lo).toNat).map (fun k => lo + k)

/-- `Array(n).fill(x)` / the `for (n = 0; n <= MAX_MARKER_ZOOM; n += 1) push`
allocation: a constant array. -/
def zoomSlots {α : Type} (n : Nat) (x : α) : List α := List.replicate n x

/-- One zoom slot of the per-cluster loop body (part_005 lines 536-545 and
546-554): add the dataset id to the slot, OR the multiscale kind into the
slot, and union the cluster descendents into the slot. -/
def zoomSlotStep (dsId : String) (isMulti : Bool) (hasDescs : Bool)
    (descs : List String)
    (acc : List (List String) × List Bool × List (List String)) (z : Int) :
    List (List String) × List Bool × List (List String) :=
  (modifyAt acc.1 z.toNat (fun s => sadd s dsId),
   jsOrSet acc.2.1 z.toNat isMulti,
   if hasDescs then modifyAt acc.2.2 z.toNat (fun s => descs.foldl sadd s)
   else acc.2.2)

/-- The three per-zoom arrays of the cluster marker term after one cluster
of `addDatasetMarkers` is folded in (part_005 lines 517-554): created
together as 13 fresh slots when absent, then updated on every zoom of the
cluster band, and on slot `MAX_MARKER_ZOOM` as well for a terminal cluster.
The `getD` defaults on the two secondary maps are unreachable for states
built by the layer operations, which keep the three maps in sync. -/
def clusterTriple (descendentsOf : String → Option (List String))
    (st : AggState) (c : DatasetCluster) :
    List (List String) × List Bool × List (List String) :=
  let fresh := (st.datasetsByZoomTerm c.markerTerm).isNone
  let zd0 := (st.datasetsByZoomTerm c.markerTerm).getD (zoomSlots 13 [])
  let zm0 := if fresh then zoomSlots 13 false
    else (st.multiScaleByZoomTerm c.markerTerm).getD (zoomSlots 13 false)
  let zf0 := if fresh then zoomSlots 13 ([] : List String)
    else (st.markerTermsByZoomTerm c.markerTerm).getD (zoomSlots 13 [])
  let isMulti := decide (st.kindByDataset c.datasetId = some MarkerKind.multiscale)
  let descs := (descendentsOf c.markerTerm).getD []
  let hasDescs := (descendentsOf c.markerTerm).isSome
  let zdf := (intRange c.minZoom c.maxZoom).foldl
    (zoomSlotStep c.datasetId isMulti hasDescs descs) (zd0, zm0, zf0)
  if c.maxZoom = MAX_MARKER_ZOOM then
    zoomSlotStep c.datasetId isMulti hasDescs descs zdf 12
  else zdf

/-- The per-cluster body of `addDatasetMarkers` (part_005 lines 517-563):
update the three per-zoom structures of the cluster marker term and, for a
terminal cluster, register the concrete feature ids of the marker term
under the dataset id. -/
def addClusterAgg (modelFeatureIds : String → List Nat)
    (descendentsOf : String → Option (List String)) (st : AggState)
    (c : DatasetCluster) : AggState :=
  let zdf2 := clusterTriple descendentsOf st c
  let newFeatureIds :=
    if c.maxZoom = MAX_MARKER_ZOOM then
      some ((modelFeatureIds c.markerTerm).foldl sadd
        ((st.datasetFeatureIds c.datasetId).getD []))
    else none
  { st with
    datasetsByZoomTerm := fun t =>
      if t = c.markerTerm then some zdf2.1 else st.datasetsByZoomTerm t,
    multiScaleByZoomTerm := fun t =>
      if t = c.markerTerm then some zdf2.2.1 else st.multiScaleByZoomTerm t,
    markerTermsByZoomTerm := fun t =>
      if t = c.markerTerm then some zdf2.2.2 else st.markerTermsByZoomTerm t,
    datasetFeatureIds := fun k =>
      match newFeatureIds with
      | some l => if k = c.datasetId then some l else st.datasetFeatureIds k
      | none => st.datasetFeatureIds k }

/-- The per-descendents-entry body of `addDatasetMarkers` (part_005 lines
565-575): union the descendents into the marker-terms set of the term, and
record the dataset kind for each descendent not already marked multiscale. -/
def addDescendentsAgg (dkind : Option MarkerKind) (st : AggState)
    (entry : String × List String) : AggState :=
  let mt0 := (st.markerTerms entry.1).getD []
  let stepkbt := fun (acc : List String × (String → Option MarkerKind)) (descendent : String) =>
    (sadd acc.1 descendent,
     if acc.2 descendent ≠ some MarkerKind.multiscale then
       fun k => if k = descendent then some (dkind.getD MarkerKind.dataset) else acc.2 k
     else acc.2)
  let mtk := entry.2.foldl stepkbt (mt0, st.kindByTerm)
  { st with
    markerTerms := fun t => if t = entry.1 then some mtk.1 else st.markerTerms t,
    kindByTerm := mtk.2 }

/-- The kind registration at the head of the per-dataset body (part_005
lines 514-516): `if (dataset.kind) kindByDataset.set(dataset.id, kind)`. -/
def kindSet (st : AggState) (d : DatasetTerms) : AggState :=
  match d.kind with
  | some k =>
    { st with kindByDataset := fun ds =>
        if ds = d.id then some k else st.kindByDataset ds }
  | none => st

/-- The per-dataset body of `addDatasetMarkers` (part_005 lines 511-576):
record the dataset kind, then fold the cluster records and the descendents
entries of the freshly built `DatasetClusterSet` into the aggregate. -/
def addDatasetAgg (modelFeatureIds : String → List Nat) (st : AggState)
    (d : DatasetTerms) (cset : DatasetClusterSetResult) : AggState :=
  let st2 := cset.clustersList.foldl
    (addClusterAgg modelFeatureIds (alistGet cset.descendents)) (kindSet st d)
  cset.descendents.foldl (addDescendentsAgg d.kind) st2

/-- `ClusteredAnatomicalMarkerLayer.addDatasetMarkers` (part_005 lines
508-579): datasets with an empty term list are skipped; `cgOf` stands for
the connected subgraph the term graph produces for each dataset.  The final
`#update()` call only rebuilds rendered marker points and touches no
aggregate state. -/
def addDatasetMarkers (hasAI : String → Bool) (M : MapTermGraph)
    (cgOf : DatasetTerms → SubGraph) (fuel : Nat)
    (modelFeatureIds : String → List Nat)
    (st : AggState) (datasets : List DatasetTerms) : AggState :=
  datasets.foldl (fun st d =>
    if d.terms ≠ [] then
      addDatasetAgg modelFeatureIds st d
        (buildDatasetClusterSet hasAI M (cgOf d) fuel d.id d.terms)
    else st) st

/-- The multiscale recomputation of `removeDatasetMarker` (part_005 lines
597-607): start from `Array(MAX_MARKER_ZOOM).fill(false)` — 12 slots, one
short of the 13 zoom levels — and OR the kinds of the remaining datasets of
each zoom slot back in; slot 12 is only created when some dataset remains
there. -/
def recomputeMultiscale (kindByDataset : String → Option MarkerKind)
    (removed : String) (zoomDatasets : List (List String)) : List Bool :=
  zoomDatasets.enum.foldl (fun acc pr =>
    pr.2.foldl (fun acc2 dsId =>
      if dsId ≠ removed then
        jsOrSet acc2 pr.1 (decide (kindByDataset dsId = some MarkerKind.multiscale))
      else acc2) acc)
    (zoomSlots MAX_MARKER_ZOOM.toNat false)

/-- `ClusteredAnatomicalMarkerLayer.removeDatasetMarker` (part_005 lines
591-613): drop the dataset feature ids and kind, delete the dataset id from
every per-zoom set, and replace every multiscale entry with the recomputed
flags of the remaining datasets. -/
def removeDatasetMarker (st : AggState) (datasetId : String) : AggState :=
  { st with
    datasetFeatureIds := fun k =>
      if k = datasetId then none else st.datasetFeatureIds k,
    datasetsByZoomTerm := fun t =>
      (st.datasetsByZoomTerm t).map
        (fun zs => zs.map (fun ds => ds.filter (fun x => !(x == datasetId)))),
    multiScaleByZoomTerm := fun t =>
      match st.datasetsByZoomTerm t with
      | some zoomDatasets =>
        some (recomputeMultiscale st.kindByDataset datasetId zoomDatasets)
      | none => st.multiScaleByZoomTerm t,
    kindByDataset := fun k =>
      if k = datasetId then none else st.kindByDataset k }

/-- `ClusteredAnatomicalMarkerLayer.datasetIds` (part_005 lines 140-148): an
unknown term yields the empty list; otherwise the 13-slot per-zoom array is
indexed at `Math.floor(zoomLevel)` with no bounds guard — an out-of-range
index reads `undefined` and the spread throws, modelled as `none`. -/
def datasetIds (st : AggState) (term : String) (zoomLevel : ℚ) :
    Option (List String) :=
  match st.datasetsByZoomTerm term with
  | some zoomDatasets =>
    let i := ⌊zoomLevel⌋
    if h : 0 ≤ i ∧ i.toNat < zoomDatasets.length then
      some (zoomDatasets.get ⟨i.toNat, h.2⟩)
    else none
  | none => some []

/-- The aggregate state with no datasets loaded. -/
def emptyAgg : AggState where
  datasetFeatureIds := fun _ => none
  datasetsByZoomTerm := fun _ => none
  kindByDataset := fun _ => none
  kindByTerm := fun _ => none
  markerTerms := fun _ => none
  markerTermsByZoomTerm := fun _ => none
  multiScaleByZoomTerm := fun _ => none

/-- C10: `datasetIds(term, zoomLevel)` returns the empty list for every term
with no aggregate entry; when the term has an entry (a 13-slot array, as
`addDatasetMarkers` builds them), the array is indexed at
`floor(zoomLevel)` without a bounds guard, so the operation returns a list
exactly when `0 ≤ floor(zoomLevel) ≤ MAX_MARKER_ZOOM`. -/
theorem datasetIds_empty_or_bounded (st : AggState)
    (hlen : ∀ t arr, st.datasetsByZoomTerm t = some arr → arr.length = 13) :
    ∀ (term : String) (z : ℚ),
      (st.datasetsByZoomTerm term = none → datasetIds st term z = some []) ∧
      (st.datasetsByZoomTerm term ≠ none →
        ((datasetIds st term z).isSome = true ↔
          0 ≤ ⌊z⌋ ∧ ⌊z⌋ ≤ MAX_MARKER_ZOOM)) := by
  intro term z
  constructor
  · intro h
    unfold datasetIds
    rw [h]
  · intro h
    rcases harr : st.datasetsByZoomTerm term with _ | arr
    · exact absurd harr h
    have hl := hlen term arr harr
    unfold datasetIds
    rw [harr]
    dsimp only
    by_cases hcond : 0 ≤ ⌊z⌋ ∧ (⌊z⌋).toNat < arr.length
    · rw [dif_pos hcond]
      simp only [Option.isSome_some, true_iff]
      refine ⟨hcond.1, ?_⟩
      have h2 := hcond.2
      rw [hl] at h2
      unfold MAX_MARKER_ZOOM
      omega
    · rw [dif_neg hcond]
      simp only [Option.isSome_none, Bool.false_eq_true, false_iff]
      intro hc
      apply hcond
      refine ⟨hc.1, ?_⟩
      rw [hl]
      have h2 := hc.2
      unfold MAX_MARKER_ZOOM at h2
      omega

/-- A concrete aggregate state for the query example. -/
def exAgg10 : AggState :=
  { emptyAgg with
    datasetsByZoomTerm := fun t =>
      if t = "L" then some (zoomSlots 13 ["d1"]) else none }

/-- Witness for C10 at zoom level 5/2, on a known and an unknown term. -/
theorem datasetIds_empty_or_bounded_witness :
    (exAgg10.datasetsByZoomTerm "X" = none →
      datasetIds exAgg10 "X" (5/2) = some []) ∧
    (exAgg10.datasetsByZoomTerm "L" ≠ none →
      ((datasetIds exAgg10 "L" (5/2)).isSome = true ↔
        0 ≤ ⌊(5/2 : ℚ)⌋ ∧ ⌊(5/2 : ℚ)⌋ ≤ MAX_MARKER_ZOOM)) := by
  have hlen : ∀ t arr, exAgg10.datasetsByZoomTerm t = some arr → arr.length = 13 := by
    intro t arr h
    unfold exAgg10 at h
    dsimp only at h
    split_ifs at h
    cases Option.some.inj h
    rfl
  exact ⟨(datasetIds_empty_or_bounded exAgg10 hlen "X" (5/2)).1,
    (datasetIds_empty_or_bounded exAgg10 hlen "L" (5/2)).2⟩

/-- The feature oracle of the examples: P2 and the root model one concrete
feature each. -/
def exMFI : String → List Nat :=
  fun t => if t = "P2" then [7] else if t = ANATOMICAL_ROOT then [3] else []

/-- A multiscale dataset whose single raw term T substitutes to P2. -/
def exDatasetM : DatasetTerms := ⟨"d", some MarkerKind.multiscale, ["T"]⟩

/-- A plain dataset whose single raw term T substitutes to P2. -/
def exDataset : DatasetTerms := ⟨"d", some MarkerKind.dataset, ["T"]⟩

/-- The aggregate state after loading the multiscale dataset. -/
def exAggM : AggState :=
  addDatasetMarkers exHasAI exGraph (fun _ => exCG) 5 exMFI emptyAgg [exDatasetM]

/-- C4 (code bug): after loading the multiscale dataset the per-zoom arrays
of its marker term have 13 slots and the multiscale flags are true on the
band of the terminal cluster up to and including zoom 12; removing the
dataset clears the dataset id from all 13 per-zoom sets, but the recomputed
multiscale entry is `Array(MAX_MARKER_ZOOM).fill(false)` — only 12 slots, so
the flag at zoom `MAX_MARKER_ZOOM = 12` is left undefined instead of the
false entry the claim requires (the slot would only be recreated if a
remaining dataset sat at zoom 12). -/
theorem removeDatasetMarker_omits_top_zoom_flag :
    exAggM.multiScaleByZoomTerm "P2" =
      some (List.replicate 7 false ++ List.replicate 6 true) ∧
    (removeDatasetMarker exAggM "d").datasetsByZoomTerm "P2" =
      some (List.replicate 13 []) ∧
    (removeDatasetMarker exAggM "d").multiScaleByZoomTerm "P2" =
      some (List.replicate 12 false) := by
  refine ⟨?_, ?_, ?_⟩ <;> decide

/-- C3 counterexample: starting from the empty aggregate, adding the single
dataset d and removing it again does not restore the aggregate: the
term-kind map and the marker-terms map still carry the contribution of d,
and these retained entries are not per-zoom dataset sets (empty or
otherwise), so the stated exception does not cover them. -/
theorem add_remove_not_restored :
    emptyAgg.kindByTerm "T" = none ∧
    emptyAgg.markerTerms "P2" = none ∧
    (removeDatasetMarker
      (addDatasetMarkers exHasAI exGraph (fun _ => exCG) 5 exMFI emptyAgg [exDataset])
      "d").kindByTerm "T" = some MarkerKind.dataset ∧
    (removeDatasetMarker
      (addDatasetMarkers exHasAI exGraph (fun _ => exCG) 5 exMFI emptyAgg [exDataset])
      "d").markerTerms "P2" = some ["T"] := by
  refine ⟨rfl, rfl, ?_, ?_⟩ <;> decide

/-! ## Restoration of the aggregate after add and remove -/

theorem modifyAt_length {α : Type} (l : List α) (i : Nat) (f : α → α) :
    (modifyAt l i f).length = l.length := by
  induction l generalizing i with
  | nil => rfl
  | cons a rest ih =>
    cases i with
    | zero => rfl
    | succ i => simp only [modifyAt, List.length_cons, ih]

theorem modifyAt_getD {α : Type} (l : List α) (i j : Nat) (f : α → α) (d : α) :
    (modifyAt l i f).getD j d =
      if j = i ∧ j < l.length then f (l.getD j d) else l.getD j d := by
  induction l generalizing i j with
  | nil => simp [modifyAt]
  | cons a rest ih =>
    cases i with
    | zero =>
      cases j with
      | zero => simp [modifyAt]
      | succ j => simp [modifyAt]
    | succ i =>
      cases j with
      | zero => simp [modifyAt]
      | succ j =>
        simp only [modifyAt, List.getD_cons_succ, List.length_cons]
        rw [ih]
        by_cases hc : j = i ∧ j < rest.length
        · rw [if_pos hc, if_pos (by omega)]
        · rw [if_neg hc, if_neg (by omega)]

theorem getD_map_nilpres {α : Type} (f : List α → List α) (hf : f [] = [])
    (l : List (List α)) (i : Nat) :
    (l.map f).getD i [] = f (l.getD i []) := by
  induction l generalizing i with
  | nil => simp [hf]
  | cons a rest ih =>
    cases i with
    | zero => simp
    | succ i => simpa using ih i

theorem getD_replicate_nil {α : Type} (n i : Nat) :
    (List.replicate n ([] : List α)).getD i [] = [] := by
  induction n generalizing i with
  | zero => simp
  | succ n ih =>
    cases i with
    | zero => simp [List.replicate]
    | succ i => simp [List.replicate, ih i]

theorem list_eq_of_getD {α : Type} (l1 l2 : List (List α))
    (hlen : l1.length = l2.length) (h : ∀ i, l1.getD i [] = l2.getD i []) :
    l1 = l2 := by
  induction l1 generalizing l2 with
  | nil =>
    cases l2 with
    | nil => rfl
    | cons b bs => simp at hlen
  | cons a as ih =>
    cases l2 with
    | nil => simp at hlen
    | cons b bs =>
      have h0 := h 0
      simp only [List.getD_cons_zero] at h0
      have hr : as = bs := by
        refine ih bs (by simpa using hlen) (fun i => ?_)
        have hi := h (i+1)
        simpa using hi
      rw [h0, hr]

theorem filter_ne_self {α : Type} [DecidableEq α] (l : List α) (x : α)
    (h : x ∉ l) : l.filter (fun a => !(a == x)) = l := by
  apply List.filter_eq_self.mpr
  intro a ha
  have hax : a ≠ x := fun he => h (he ▸ ha)
  simp [hax]

theorem filter_append_single {α : Type} [DecidableEq α] (l : List α) (x : α)
    (h : x ∉ l) : (l ++ [x]).filter (fun a => !(a == x)) = l := by
  rw [List.filter_append, filter_ne_self l x h]
  simp

/-- The reference per-zoom array of a term in the pre-add state. -/
def refArr (s0 : AggState) (t : String) : List (List String) :=
  (s0.datasetsByZoomTerm t).getD (zoomSlots 13 [])

/-- A per-zoom array differs from the reference only by a trailing `dsId`
in some slots. -/
def SlotSchema (ref : List (List String)) (dsId : String)
    (arr : List (List String)) : Prop :=
  arr.length = ref.length ∧
  ∀ i : Nat, arr.getD i [] = ref.getD i [] ∨
    arr.getD i [] = ref.getD i [] ++ [dsId]

/-- Every per-zoom dataset map entry is either untouched or differs from the
reference only by trailing `dsId` entries. -/
def DbztSchema (s0 : AggState) (dsId : String) (cur : AggState) : Prop :=
  ∀ t, cur.datasetsByZoomTerm t = s0.datasetsByZoomTerm t ∨
    ∃ arr, cur.datasetsByZoomTerm t = some arr ∧
      SlotSchema (refArr s0 t) dsId arr

theorem slotSchema_refl (ref : List (List String)) (dsId : String) :
    SlotSchema ref dsId ref :=
  ⟨rfl, fun _ => Or.inl rfl⟩

theorem slotSchema_modifyAt (ref : List (List String)) (dsId : String)
    (href : ∀ i : Nat, dsId ∉ ref.getD i []) (arr : List (List String))
    (j : Nat) (h : SlotSchema ref dsId arr) :
    SlotSchema ref dsId (modifyAt arr j (fun s => sadd s dsId)) := by
  obtain ⟨hlen, hs⟩ := h
  refine ⟨by rw [modifyAt_length, hlen], ?_⟩
  intro i
  rw [modifyAt_getD]
  by_cases hc : i = j ∧ i < arr.length
  · rw [if_pos hc]
    rcases hs i with h' | h'
    · rw [h']
      right
      unfold sadd
      rw [if_neg (href i)]
    · rw [h']
      right
      unfold sadd
      rw [if_pos (by simp)]
  · rw [if_neg hc]; exact hs i

theorem slotSchema_fold (ref : List (List String)) (dsId : String)
    (href : ∀ i : Nat, dsId ∉ ref.getD i []) (l : List Int) :
    ∀ arr, SlotSchema ref dsId arr →
      SlotSchema ref dsId
        (l.foldl (fun a z => modifyAt a z.toNat (fun s => sadd s dsId)) arr) := by
  induction l with
  | nil => intro arr h; exact h
  | cons z l ih =>
    intro arr h
    simp only [List.foldl_cons]
    exact ih _ (slotSchema_modifyAt ref dsId href arr z.toNat h)

theorem zoomSlotStep_fold_fst (dsId : String) (isM hasD : Bool)
    (descs : List String) (l : List Int) :
    ∀ (a : List (List String)) (b : List Bool) (c : List (List String)),
      (l.foldl (zoomSlotStep dsId isM hasD descs) (a, b, c)).1 =
        l.foldl (fun a z => modifyAt a z.toNat (fun s => sadd s dsId)) a := by
  induction l with
  | nil => intro a b c; rfl
  | cons z l ih =>
    intro a b c
    simp only [List.foldl_cons]
    exact ih _ _ _

theorem zoomSlotStep_fst (dsId : String) (isM hasD : Bool)
    (descs : List String)
    (acc : List (List String) × List Bool × List (List String)) (z : Int) :
    (zoomSlotStep dsId isM hasD descs acc z).1 =
      modifyAt acc.1 z.toNat (fun s => sadd s dsId) := rfl

/-- The first component of the cluster triple: the per-zoom dataset sets of
the marker term, with the dataset id added on the band slots. -/
theorem clusterTriple_fst (descOf : String → Option (List String))
    (st : AggState) (c : DatasetCluster) :
    (clusterTriple descOf st c).1 =
      (let base := (st.datasetsByZoomTerm c.markerTerm).getD (zoomSlots 13 [])
       let upd := (intRange c.minZoom c.maxZoom).foldl
         (fun a z => modifyAt a z.toNat (fun s => sadd s c.datasetId)) base
       if c.maxZoom = MAX_MARKER_ZOOM then
         modifyAt upd 12 (fun s => sadd s c.datasetId)
       else upd) := by
  unfold clusterTriple
  dsimp only
  by_cases hmax : c.maxZoom = MAX_MARKER_ZOOM
  · rw [if_pos hmax, if_pos hmax, zoomSlotStep_fst, zoomSlotStep_fold_fst]
    rfl
  · rw [if_neg hmax, if_neg hmax]
    rw [zoomSlotStep_fold_fst]

theorem addClusterAgg_dbzt (mfi : String → List Nat)
    (descOf : String → Option (List String)) (st : AggState)
    (c : DatasetCluster) (t : String) :
    (addClusterAgg mfi descOf st c).datasetsByZoomTerm t =
      if t = c.markerTerm then some (clusterTriple descOf st c).1
      else st.datasetsByZoomTerm t := rfl

theorem addClusterAgg_kbd (mfi : String → List Nat)
    (descOf : String → Option (List String)) (st : AggState)
    (c : DatasetCluster) :
    (addClusterAgg mfi descOf st c).kindByDataset = st.kindByDataset := rfl

theorem addClusterAgg_dfi (mfi : String → List Nat)
    (descOf : String → Option (List String)) (st : AggState)
    (c : DatasetCluster) (k : String) (hk : k ≠ c.datasetId) :
    (addClusterAgg mfi descOf st c).datasetFeatureIds k =
      st.datasetFeatureIds k := by
  unfold addClusterAgg
  dsimp only
  by_cases hmax : c.maxZoom = MAX_MARKER_ZOOM
  · rw [if_pos hmax]
    dsimp only
    rw [if_neg hk]
  · rw [if_neg hmax]

theorem addDescendentsAgg_dbzt (dkind : Option MarkerKind) (st : AggState)
    (entry : String × List String) :
    (addDescendentsAgg dkind st entry).datasetsByZoomTerm =
      st.datasetsByZoomTerm := rfl

theorem addDescendentsAgg_kbd (dkind : Option MarkerKind) (st : AggState)
    (entry : String × List String) :
    (addDescendentsAgg dkind st entry).kindByDataset = st.kindByDataset := rfl

theorem addDescendentsAgg_dfi (dkind : Option MarkerKind) (st : AggState)
    (entry : String × List String) :
    (addDescendentsAgg dkind st entry).datasetFeatureIds =
      st.datasetFeatureIds := rfl

theorem getD_mem_of_lt {α : Type} (l : List α) (i : Nat) (d : α)
    (h : i < l.length) : l.getD i d ∈ l := by
  induction l generalizing i with
  | nil => simp at h
  | cons a rest ih =>
    cases i with
    | zero => simp
    | succ i =>
      simp only [List.getD_cons_succ]
      exact List.mem_cons_of_mem _ (ih i (by simpa using h))

theorem getD_eq_get_of_lt {α : Type} (l : List α) (i : Nat) (d : α)
    (h : i < l.length) : l.getD i d = l.get ⟨i, h⟩ := by
  induction l generalizing i with
  | nil => simp at h
  | cons a rest ih =>
    cases i with
    | zero => simp
    | succ i =>
      simp only [List.getD_cons_succ, List.get]
      exact ih i (by simpa using h)

theorem map_eq_self {α : Type} (f : α → α) (l : List α)
    (h : ∀ a ∈ l, f a = a) : l.map f = l := by
  induction l with
  | nil => rfl
  | cons a rest ih =>
    simp only [List.map_cons, h a (List.mem_cons_self _ _),
      ih (fun b hb => h b (List.mem_cons_of_mem _ hb))]

/-- Every record of a constructed `DatasetClusterSet` carries the dataset id
the construction was given: the identifying fields are set at
initialization and never rewritten. -/
theorem buildDCS_datasetId (hasAI : String → Bool) (M : MapTermGraph)
    (CG : SubGraph) (fuel : Nat) (dsId : String) (terms : List String) :
    ∀ c ∈ (buildDatasetClusterSet hasAI M CG fuel dsId terms).clustersList,
      c.datasetId = dsId := by
  intro c hc
  obtain ⟨t, _, hct⟩ := List.mem_filterMap.mp hc
  obtain ⟨mk1, inv1⟩ :=
    terminal_fold_inv CG (dcsTermsAttr hasAI M fuel terms)
      (fun n => CG.nodes.contains n) fuel (terminalNodes CG)
      (dcsInit M CG dsId) (dcsInit_inv M CG dsId)
  obtain ⟨m2, _⟩ := smzfr_mono CG hasAI fuel
    (dcsAfterTerminals hasAI M CG fuel dsId terms) ANATOMICAL_ROOT inv1
  obtain ⟨c1, hc1, _, hid1, _, _⟩ := m2 t c hct
  obtain ⟨c0, hc0, _, hid0, _, _⟩ := mk1.1 t c1 hc1
  unfold dcsInit at hc0
  dsimp only at hc0
  split_ifs at hc0
  cases Option.some.inj hc0
  rw [hid1, hid0]

theorem kindSet_dbzt (st : AggState) (d : DatasetTerms) :
    (kindSet st d).datasetsByZoomTerm = st.datasetsByZoomTerm := by
  unfold kindSet
  cases d.kind <;> rfl

theorem kindSet_dfi (st : AggState) (d : DatasetTerms) :
    (kindSet st d).datasetFeatureIds = st.datasetFeatureIds := by
  unfold kindSet
  cases d.kind <;> rfl

theorem kindSet_kbd (st : AggState) (d : DatasetTerms) (k : String)
    (hk : k ≠ d.id) : (kindSet st d).kindByDataset k = st.kindByDataset k := by
  unfold kindSet
  cases d.kind with
  | none => rfl
  | some _ =>
    dsimp only
    rw [if_neg hk]

theorem addClusterAgg_fold_kbd (mfi : String → List Nat)
    (descOf : String → Option (List String)) :
    ∀ (cs : List DatasetCluster) (cur : AggState),
      (cs.foldl (addClusterAgg mfi descOf) cur).kindByDataset =
        cur.kindByDataset := by
  intro cs
  induction cs with
  | nil => intro cur; rfl
  | cons c cs ih =>
    intro cur
    simp only [List.foldl_cons]
    rw [ih, addClusterAgg_kbd]

theorem addClusterAgg_fold_dfi (mfi : String → List Nat)
    (descOf : String → Option (List String)) (dsId : String) (k : String)
    (hk : k ≠ dsId) :
    ∀ (cs : List DatasetCluster), (∀ c ∈ cs, c.datasetId = dsId) →
    ∀ (cur : AggState),
      (cs.foldl (addClusterAgg mfi descOf) cur).datasetFeatureIds k =
        cur.datasetFeatureIds k := by
  intro cs
  induction cs with
  | nil => intro _ cur; rfl
  | cons c cs ih =>
    intro hcs cur
    simp only [List.foldl_cons]
    rw [ih (fun c' hc' => hcs c' (List.mem_cons_of_mem _ hc')),
      addClusterAgg_dfi]
    rw [hcs c (List.mem_cons_self _ _)]
    exact hk

theorem addClusterAgg_fold_schema (mfi : String → List Nat)
    (descOf : String → Option (List String)) (s0 : AggState) (dsId : String)
    (href : ∀ t (i : Nat), dsId ∉ (refArr s0 t).getD i []) :
    ∀ (cs : List DatasetCluster), (∀ c ∈ cs, c.datasetId = dsId) →
    ∀ (cur : AggState), DbztSchema s0 dsId cur →
      DbztSchema s0 dsId (cs.foldl (addClusterAgg mfi descOf) cur) := by
  have step : ∀ (c : DatasetCluster) (cur : AggState), c.datasetId = dsId →
      DbztSchema s0 dsId cur →
      DbztSchema s0 dsId (addClusterAgg mfi descOf cur c) := by
    intro c cur hcid hsch t
    rw [addClusterAgg_dbzt]
    by_cases ht : t = c.markerTerm
    · rw [if_pos ht]
      right
      refine ⟨_, rfl, ?_⟩
      rw [clusterTriple_fst]
      dsimp only
      rw [← ht, hcid]
      have hbase : SlotSchema (refArr s0 t) dsId
          ((cur.datasetsByZoomTerm t).getD (zoomSlots 13 [])) := by
        rcases hsch t with h' | ⟨arr, harr, hs⟩
        · rw [h']
          exact slotSchema_refl _ _
        · rw [harr]
          exact hs
      have hupd := slotSchema_fold (refArr s0 t) dsId (href t)
        (intRange c.minZoom c.maxZoom) _ hbase
      by_cases hmax : c.maxZoom = MAX_MARKER_ZOOM
      · rw [if_pos hmax]
        exact slotSchema_modifyAt _ _ (href t) _ 12 hupd
      · rw [if_neg hmax]
        exact hupd
    · rw [if_neg ht]
      exact hsch t
  intro cs
  induction cs with
  | nil => intro _ cur h; exact h
  | cons c cs ih =>
    intro hcs cur h
    simp only [List.foldl_cons]
    exact ih (fun c' hc' => hcs c' (List.mem_cons_of_mem _ hc')) _
      (step c cur (hcs c (List.mem_cons_self _ _)) h)

theorem addDescendentsAgg_fold_dbzt (dk : Option MarkerKind) :
    ∀ (ds : List (String × List String)) (cur : AggState),
      (ds.foldl (addDescendentsAgg dk) cur).datasetsByZoomTerm =
        cur.datasetsByZoomTerm := by
  intro ds
  induction ds with
  | nil => intro cur; rfl
  | cons e ds ih =>
    intro cur
    simp only [List.foldl_cons]
    rw [ih, addDescendentsAgg_dbzt]

theorem addDescendentsAgg_fold_kbd (dk : Option MarkerKind) :
    ∀ (ds : List (String × List String)) (cur : AggState),
      (ds.foldl (addDescendentsAgg dk) cur).kindByDataset =
        cur.kindByDataset := by
  intro ds
  induction ds with
  | nil => intro cur; rfl
  | cons e ds ih =>
    intro cur
    simp only [List.foldl_cons]
    rw [ih, addDescendentsAgg_kbd]

theorem addDescendentsAgg_fold_dfi (dk : Option MarkerKind) :
    ∀ (ds : List (String × List String)) (cur : AggState),
      (ds.foldl (addDescendentsAgg dk) cur).datasetFeatureIds =
        cur.datasetFeatureIds := by
  intro ds
  induction ds with
  | nil => intro cur; rfl
  | cons e ds ih =>
    intro cur
    simp only [List.foldl_cons]
    rw [ih, addDescendentsAgg_dfi]

/-- C3 (amended): for any aggregate state in which the id of dataset d does
not occur — no feature-id entry, no kind entry, and no membership in any
per-zoom dataset set — and any d with a non-empty term list,
`addDatasetMarkers([d])` followed by `removeDatasetMarker(d.id)` restores
the dataset-feature-id map, the dataset-kind map, and every pre-existing
per-zoom dataset entry exactly; a term only contributed by d may retain an
entry whose per-zoom dataset sets are all empty.  The term-kind,
marker-terms, per-zoom marker-term and per-zoom multiscale components are
not restored: they retain contributions of d, as the counterexample
shows. -/
theorem add_remove_restores_dataset_components (hasAI : String → Bool)
    (M : MapTermGraph) (cgOf : DatasetTerms → SubGraph) (fuel : Nat)
    (mfi : String → List Nat) (st : AggState) (d : DatasetTerms)
    (hterms : d.terms ≠ [])
    (hfresh1 : st.datasetFeatureIds d.id = none)
    (hfresh2 : st.kindByDataset d.id = none)
    (hfresh3 : ∀ t arr, st.datasetsByZoomTerm t = some arr → ∀ s ∈ arr, d.id ∉ s) :
    (∀ k, (removeDatasetMarker
        (addDatasetMarkers hasAI M cgOf fuel mfi st [d]) d.id).datasetFeatureIds k
      = st.datasetFeatureIds k) ∧
    (∀ k, (removeDatasetMarker
        (addDatasetMarkers hasAI M cgOf fuel mfi st [d]) d.id).kindByDataset k
      = st.kindByDataset k) ∧
    (∀ t arr, st.datasetsByZoomTerm t = some arr →
      (removeDatasetMarker
        (addDatasetMarkers hasAI M cgOf fuel mfi st [d]) d.id).datasetsByZoomTerm t
      = some arr) ∧
    (∀ t arr', st.datasetsByZoomTerm t = none →
      (removeDatasetMarker
        (addDatasetMarkers hasAI M cgOf fuel mfi st [d]) d.id).datasetsByZoomTerm t
      = some arr' → ∀ s ∈ arr', s = []) := by
  have href : ∀ t (i : Nat), d.id ∉ (refArr st t).getD i [] := by
    intro t i hmem
    unfold refArr at hmem
    rcases harr : st.datasetsByZoomTerm t with _ | arr
    · rw [harr] at hmem
      simp only [Option.getD_none] at hmem
      unfold zoomSlots at hmem
      rw [getD_replicate_nil] at hmem
      exact absurd hmem (List.not_mem_nil _)
    · rw [harr] at hmem
      simp only [Option.getD_some] at hmem
      by_cases hi : i < arr.length
      · exact hfresh3 t arr harr _ (getD_mem_of_lt arr i [] hi) hmem
      · rw [List.getD_eq_default _ _ (by omega)] at hmem
        exact absurd hmem (List.not_mem_nil _)
  have hone : addDatasetMarkers hasAI M cgOf fuel mfi st [d]
      = addDatasetAgg mfi st d
          (buildDatasetClusterSet hasAI M (cgOf d) fuel d.id d.terms) := by
    unfold addDatasetMarkers
    rw [List.foldl_cons, List.foldl_nil]
    rw [if_pos hterms]
  set cset := buildDatasetClusterSet hasAI M (cgOf d) fuel d.id d.terms with hcs
  have hdsid : ∀ c ∈ cset.clustersList, c.datasetId = d.id :=
    buildDCS_datasetId hasAI M (cgOf d) fuel d.id d.terms
  have haddA : addDatasetAgg mfi st d cset =
      cset.descendents.foldl (addDescendentsAgg d.kind)
        (cset.clustersList.foldl
          (addClusterAgg mfi (alistGet cset.descendents)) (kindSet st d)) := rfl
  have hAdbzt : ∀ t, (addDatasetAgg mfi st d cset).datasetsByZoomTerm t =
      (cset.clustersList.foldl
        (addClusterAgg mfi (alistGet cset.descendents))
        (kindSet st d)).datasetsByZoomTerm t := by
    intro t
    rw [haddA, addDescendentsAgg_fold_dbzt]
  have hAkbd : ∀ k, k ≠ d.id →
      (addDatasetAgg mfi st d cset).kindByDataset k = st.kindByDataset k := by
    intro k hk
    rw [haddA, addDescendentsAgg_fold_kbd, addClusterAgg_fold_kbd,
      kindSet_kbd st d k hk]
  have hAdfi : ∀ k, k ≠ d.id →
      (addDatasetAgg mfi st d cset).datasetFeatureIds k =
        st.datasetFeatureIds k := by
    intro k hk
    rw [haddA, addDescendentsAgg_fold_dfi,
      addClusterAgg_fold_dfi mfi _ d.id k hk cset.clustersList hdsid,
      kindSet_dfi]
  have hsch : DbztSchema st d.id (addDatasetAgg mfi st d cset) := by
    intro t
    rw [hAdbzt]
    have h0 : DbztSchema st d.id (kindSet st d) := by
      intro t'
      left
      rw [kindSet_dbzt]
    exact addClusterAgg_fold_schema mfi _ st d.id href cset.clustersList
      hdsid _ h0 t
  have hrm_dfi : ∀ (sA : AggState) (k : String),
      (removeDatasetMarker sA d.id).datasetFeatureIds k =
        if k = d.id then none else sA.datasetFeatureIds k := fun _ _ => rfl
  have hrm_kbd : ∀ (sA : AggState) (k : String),
      (removeDatasetMarker sA d.id).kindByDataset k =
        if k = d.id then none else sA.kindByDataset k := fun _ _ => rfl
  have hrm_dbzt : ∀ (sA : AggState) (t : String),
      (removeDatasetMarker sA d.id).datasetsByZoomTerm t =
        (sA.datasetsByZoomTerm t).map
          (fun zs => zs.map (fun ds => ds.filter (fun x => !(x == d.id)))) :=
    fun _ _ => rfl
  refine ⟨?_, ?_, ?_, ?_⟩
  · intro k
    rw [hone, hrm_dfi]
    by_cases hk : k = d.id
    · rw [if_pos hk, hk, hfresh1]
    · rw [if_neg hk]
      exact hAdfi k hk
  · intro k
    rw [hone, hrm_kbd]
    by_cases hk : k = d.id
    · rw [if_pos hk, hk, hfresh2]
    · rw [if_neg hk]
      exact hAkbd k hk
  · intro t arr harr
    rw [hone, hrm_dbzt]
    have hself : ∀ s ∈ arr, s.filter (fun x => !(x == d.id)) = s :=
      fun s hs => filter_ne_self s d.id (hfresh3 t arr harr s hs)
    rcases hsch t with h' | ⟨arr2, harr2, hslot⟩
    · rw [h', harr]
      simp only [Option.map_some']
      rw [map_eq_self _ arr hself]
    · rw [harr2]
      simp only [Option.map_some', Option.some.injEq]
      have hrefeq : refArr st t = arr := by
        unfold refArr
        rw [harr]
        rfl
      apply list_eq_of_getD
      · rw [List.length_map, hslot.1, hrefeq]
      · intro i
        rw [getD_map_nilpres _ rfl]
        rcases hslot.2 i with h2 | h2
        · rw [h2, filter_ne_self _ d.id (href t i), hrefeq]
        · rw [h2, filter_append_single _ d.id (href t i), hrefeq]
  · intro t arr' hnone harr'
    rw [hone, hrm_dbzt] at harr'
    have hrefnil : ∀ i : Nat, (refArr st t).getD i [] = [] := by
      intro i
      unfold refArr
      rw [hnone]
      simp only [Option.getD_none]
      unfold zoomSlots
      exact getD_replicate_nil _ _
    rcases hsch t with h' | ⟨arr2, harr2, hslot⟩
    · rw [h', hnone] at harr'
      simp at harr'
    · rw [harr2] at harr'
      simp only [Option.map_some', Option.some.injEq] at harr'
      intro s hs
      rw [← harr'] at hs
      obtain ⟨s2, hs2, hfeq⟩ := List.mem_map.mp hs
      obtain ⟨⟨i, hilt⟩, hget⟩ := List.mem_iff_get.mp hs2
      have hgd : arr2.getD i [] = s2 := by
        rw [getD_eq_get_of_lt arr2 i [] hilt, hget]
      rcases hslot.2 i with h2 | h2
      · rw [hgd, hrefnil i] at h2
        rw [← hfeq, h2]
        rfl
      · rw [hgd, hrefnil i] at h2
        rw [← hfeq, h2]
        simp

/-- Witness for C3 (amended): the chain dataset added to and removed from
the empty aggregate. -/
theorem add_remove_restores_dataset_components_witness :
    (∀ k, (removeDatasetMarker
        (addDatasetMarkers exHasAI exGraph (fun _ => exCG) 5 exMFI emptyAgg
          [exDataset]) exDataset.id).datasetFeatureIds k
      = emptyAgg.datasetFeatureIds k) ∧
    (∀ k, (removeDatasetMarker
        (addDatasetMarkers exHasAI exGraph (fun _ => exCG) 5 exMFI emptyAgg
          [exDataset]) exDataset.id).kindByDataset k
      = emptyAgg.kindByDataset k) ∧
    (∀ t arr, emptyAgg.datasetsByZoomTerm t = some arr →
      (removeDatasetMarker
        (addDatasetMarkers exHasAI exGraph (fun _ => exCG) 5 exMFI emptyAgg
          [exDataset]) exDataset.id).datasetsByZoomTerm t = some arr) ∧
    (∀ t arr', emptyAgg.datasetsByZoomTerm t = none →
      (removeDatasetMarker
        (addDatasetMarkers exHasAI exGraph (fun _ => exCG) 5 exMFI emptyAgg
          [exDataset]) exDataset.id).datasetsByZoomTerm t = some arr' →
      ∀ s ∈ arr', s = []) :=
  add_remove_restores_dataset_components exHasAI exGraph (fun _ => exCG) 5
    exMFI emptyAgg exDataset (by decide) rfl rfl (fun _ _ h => nomatch h)

end FlatmapViewer
